import Mathlib

/-!
Verification of the devspace (`dws`) tool-management core against its
natural-language specification.

The Rust sources are shallowly embedded: strings are lists of characters,
maps are association lists, the filesystem and network are explicit
parameters, and fallible code returns `Except`/`Option`.  Each definition is
translated from the named Rust item; deviations of representation (for
example `std::cmp::Reverse` becoming `OrderDual`) are noted in the doc
comments.
-/

namespace Devspace

/-- Rust `&str`/`String` values are modelled as lists of unicode scalar
values.  Rust compares strings bytewise; for the ASCII data handled here the
codepoint-wise order used below coincides with it. -/
abbrev Str := List Char

/-- Decidable equality for Except values (used to evaluate concrete runs of
the fallible operations below). -/
def exceptDecEq {ε α : Type} [DecidableEq ε] [DecidableEq α] :
    DecidableEq (Except ε α) := fun a b =>
  match a, b with
  | .ok x, .ok y =>
    if h : x = y then .isTrue (by rw [h]) else .isFalse (fun hc => h (Except.ok.inj hc))
  | .ok _, .error _ => .isFalse (fun hc => Except.noConfusion hc)
  | .error _, .ok _ => .isFalse (fun hc => Except.noConfusion hc)
  | .error x, .error y =>
    if h : x = y then .isTrue (by rw [h]) else .isFalse (fun hc => h (Except.error.inj hc))

instance {ε α : Type} [DecidableEq ε] [DecidableEq α] : DecidableEq (Except ε α) :=
  exceptDecEq

/-! ### Basic character/string helpers (Rust std methods used by the code) -/

/-- ASCII whitespace test (Rust `char::is_whitespace`, restricted to the
ASCII whitespace characters that can occur in the manifests). -/
def isWhitespaceChar (c : Char) : Bool :=
  c == ' ' || c == '\t' || c == '\n' || c == '\r'

/-- Uppercase/lowercase ASCII letter pairs, the conversion table of Rust
`char::to_ascii_lowercase`. -/
def asciiPairs : List (Char × Char) :=
  [('A', 'a'), ('B', 'b'), ('C', 'c'), ('D', 'd'), ('E', 'e'), ('F', 'f'),
   ('G', 'g'), ('H', 'h'), ('I', 'i'), ('J', 'j'), ('K', 'k'), ('L', 'l'),
   ('M', 'm'), ('N', 'n'), ('O', 'o'), ('P', 'p'), ('Q', 'q'), ('R', 'r'),
   ('S', 's'), ('T', 't'), ('U', 'u'), ('V', 'v'), ('W', 'w'), ('X', 'x'),
   ('Y', 'y'), ('Z', 'z')]

/-- Whether a character is an uppercase ASCII letter. -/
def isUpperAscii (c : Char) : Bool :=
  asciiPairs.any (fun p => p.1 == c)

/-- Whether a character is a lowercase ASCII letter. -/
def isLowerAscii (c : Char) : Bool :=
  asciiPairs.any (fun p => p.2 == c)

/-- Whether a character is an ASCII digit. -/
def isDigitAscii (c : Char) : Bool :=
  (['0', '1', '2', '3', '4', '5', '6', '7', '8', '9']).contains c

/-- Rust `char::is_ascii_alphanumeric`. -/
def isAlnumAscii (c : Char) : Bool :=
  isUpperAscii c || isLowerAscii c || isDigitAscii c

/-- Rust `char::to_ascii_lowercase`: uppercase ASCII letters map to their
lowercase counterpart, every other character is unchanged. -/
def toLowerAscii (c : Char) : Char :=
  match asciiPairs.find? (fun p => p.1 == c) with
  | some p => p.2
  | none => c

/-- Rust `str::to_ascii_lowercase` on a whole string. -/
def lowerStr (s : Str) : Str :=
  s.map toLowerAscii

/-- A string contains no uppercase ASCII letter. -/
def lowerOnly (s : Str) : Bool :=
  s.all (fun c => !isUpperAscii c)

/-- Rust `str::trim`: drop leading and trailing whitespace. -/
def trimStr (s : Str) : Str :=
  ((s.dropWhile isWhitespaceChar).reverse.dropWhile isWhitespaceChar).reverse

/-- Rust `str::trim_matches(ch)`: drop leading and trailing occurrences of
one character. -/
def trimMatchesChar (ch : Char) (s : Str) : Str :=
  ((s.dropWhile (· == ch)).reverse.dropWhile (· == ch)).reverse

/-- Rust `str::ends_with`. -/
def endsWith (s suffix : Str) : Bool :=
  suffix.isSuffixOf s

/-- Rust `str::contains(substring)`. -/
def containsSub (s needle : Str) : Bool :=
  (List.range (s.length + 1)).any (fun i => needle.isPrefixOf (s.drop i))

/-- Rust `str::split(pred)`: the pieces between separator characters
(empty pieces included, as in Rust). -/
def splitOnPred (p : Char → Bool) (s : Str) : List Str :=
  s.foldr
    (fun c acc =>
      match acc with
      | cur :: rest => if p c then [] :: cur :: rest else (c :: cur) :: rest
      | [] => [[c]])
    [[]]

/-! ### installers/github.rs — release model and `select_asset` -/

/-- GithubAsset (installers/github.rs): the fields relevant to selection and
download.  `content_type` is never consulted and is omitted. -/
structure GithubAsset where
  id : Nat
  name : Str
  browser_download_url : Str
  size : Nat
  state : Option Str
deriving DecidableEq, Repr

/-- GithubRelease (installers/github.rs): tag plus asset list (the other
deserialized fields are never consulted by `select_asset`). -/
structure GithubRelease where
  tag_name : Str
  assets : List GithubAsset
deriving DecidableEq, Repr

/-- extension_score (installers/github.rs). -/
def extension_score (name : Str) : Int :=
  if endsWith name (".tar.gz".toList) || endsWith name (".tar.xz".toList) then 30
  else if endsWith name (".tgz".toList) then 25
  else if endsWith name (".zip".toList) then 20
  else if endsWith name (".tar".toList) then 15
  else 5

/-- architecture_score (installers/github.rs): additive substring bonuses on
the lowercased asset name. -/
def architecture_score (name : Str) : Int :=
  let lowered := lowerStr name
  (if containsSub lowered ("x86_64".toList) || containsSub lowered ("amd64".toList) then 10 else 0)
  + (if containsSub lowered ("arm64".toList) || containsSub lowered ("aarch64".toList) then 7 else 0)
  + (if containsSub lowered ("linux".toList) then 5 else 0)
  + (if containsSub lowered ("apple".toList) || containsSub lowered ("darwin".toList)
        || containsSub lowered ("macos".toList) then 5 else 0)

/-- AssetRank::new score field (installers/github.rs): 100 for an uploaded
or available state, plus extension and architecture bonuses. -/
def assetScore (a : GithubAsset) : Int :=
  (if a.state = some ("uploaded".toList) ∨ a.state = some ("available".toList) then 100 else 0)
  + extension_score a.name + architecture_score a.name

/-- AssetRank as an element of a lexicographically ordered type: Rust ranks
by the tuple `(score, Reverse(size), Reverse(name))`; `std::cmp::Reverse`
becomes `OrderDual`. -/
abbrev RankKey := Lex (Int × Lex (OrderDual Nat × OrderDual Str))

/-- AssetRank::new (installers/github.rs) as a `RankKey`. -/
def rankKey (a : GithubAsset) : RankKey :=
  toLex (assetScore a, toLex (OrderDual.toDual a.size, OrderDual.toDual a.name))

/-- The best/ambiguous update of GithubRelease::select_asset for one
matching asset.  Rust matches on `rank.cmp(current_rank)`: `Greater`
replaces the best and clears the ambiguity flag, `Equal` sets the flag,
`Less` leaves both. -/
def rankStep (best : Option (GithubAsset × Bool)) (asset : GithubAsset) :
    Option (GithubAsset × Bool) :=
  match best with
  | none => some (asset, false)
  | some (cur, amb) =>
    if rankKey cur < rankKey asset then some (asset, false)
    else if rankKey asset = rankKey cur then some (cur, true)
    else some (cur, amb)

/-- One iteration of the asset loop: assets not matching the filter are
skipped. -/
def selectStep (isMatch : Str → Bool) (best : Option (GithubAsset × Bool))
    (asset : GithubAsset) : Option (GithubAsset × Bool) :=
  if !isMatch asset.name then best else rankStep best asset

/-- The inner loop of GithubRelease::select_asset over one compiled filter:
fold the assets, keeping the best-ranked matching asset and an ambiguity
flag. -/
def selectBest (isMatch : Str → Bool) (assets : List GithubAsset) :
    Option (GithubAsset × Bool) :=
  assets.foldl (selectStep isMatch) none

/-- Errors of select_asset.  Regex compilation is abstracted: filters are
match predicates, so the invalid-regex failure has no counterpart here. -/
inductive SelectError where
  | noFilters
  | noAssets
  | ambiguous (index : Nat)
  | noMatch
deriving DecidableEq, Repr

/-- SelectedAsset (installers/github.rs): chosen asset plus the index of the
filter that selected it. -/
structure SelectedAsset where
  asset : GithubAsset
  pattern_index : Nat
deriving DecidableEq, Repr

/-- The filter loop of GithubRelease::select_asset: try the filters in
order; the first one with any matching asset decides (ambiguity there is
fatal), later filters are reached only if no asset matched. -/
def selectLoop (assets : List GithubAsset) (index : Nat) :
    List (Str → Bool) → Except SelectError SelectedAsset
  | [] => .error .noMatch
  | f :: rest =>
    match selectBest f assets with
    | some (asset, amb) =>
      if amb then .error (.ambiguous index) else .ok ⟨asset, index⟩
    | none => selectLoop assets (index + 1) rest

/-- GithubRelease::select_asset (installers/github.rs), with regexes
abstracted to match predicates. -/
def select_asset (r : GithubRelease) (filters : List (Str → Bool)) :
    Except SelectError SelectedAsset :=
  if filters.isEmpty then .error .noFilters
  else if r.assets.isEmpty then .error .noAssets
  else selectLoop r.assets 0 filters

/-- The assets matched by the filter at position `j`, in release order
(empty when `j` is out of range). -/
def filterMatches (assets : List GithubAsset) (filters : List (Str → Bool))
    (j : Nat) : List GithubAsset :=
  match filters[j]? with
  | some g => assets.filter (fun x => g x.name)
  | none => []

/-- Score formula written out as the specification words it (base 100 on
state, the extension bonus table, additive case-insensitive substring
bonuses), for comparison with the code-derived `assetScore`. -/
def scoreSpec (a : GithubAsset) : Int :=
  (if a.state = some ("uploaded".toList) ∨ a.state = some ("available".toList) then 100 else 0)
  + (if endsWith a.name (".tar.gz".toList) || endsWith a.name (".tar.xz".toList) then 30
     else if endsWith a.name (".tgz".toList) then 25
     else if endsWith a.name (".zip".toList) then 20
     else if endsWith a.name (".tar".toList) then 15
     else 5)
  + (if containsSub (lowerStr a.name) ("x86_64".toList)
        || containsSub (lowerStr a.name) ("amd64".toList) then 10 else 0)
  + (if containsSub (lowerStr a.name) ("arm64".toList)
        || containsSub (lowerStr a.name) ("aarch64".toList) then 7 else 0)
  + (if containsSub (lowerStr a.name) ("linux".toList) then 5 else 0)
  + (if containsSub (lowerStr a.name) ("apple".toList)
        || containsSub (lowerStr a.name) ("darwin".toList)
        || containsSub (lowerStr a.name) ("macos".toList) then 5 else 0)

/-- A concrete linux tar.gz asset used by witness evaluations. -/
def demoAssetLinuxTar : GithubAsset :=
  ⟨1, "tool-1.0-linux-x86_64.tar.gz".toList, "https://example.com/a1".toList, 100,
    some ("uploaded".toList)⟩

/-- A concrete linux deb asset (lower extension bonus) used by witness
evaluations. -/
def demoAssetLinuxDeb : GithubAsset :=
  ⟨2, "tool-1.0-linux-x86_64.deb".toList, "https://example.com/a2".toList, 200,
    some ("uploaded".toList)⟩

/-- A concrete release holding the two linux assets. -/
def demoRelease : GithubRelease :=
  ⟨"v1.0.0".toList, [demoAssetLinuxTar, demoAssetLinuxDeb]⟩

/-- Concrete ordered filters: windows first (matches nothing here), then
linux. -/
def demoFilters : List (Str → Bool) :=
  [fun n => containsSub n ("windows".toList), fun n => containsSub n ("linux".toList)]

/-- Twin assets with identical name, size and state (only ids and URLs
differ), hence identical rank tuples. -/
def demoAssetTwinOne : GithubAsset :=
  ⟨1, "tool-linux.tar.gz".toList, "https://example.com/t1".toList, 100,
    some ("uploaded".toList)⟩

/-- The second twin asset. -/
def demoAssetTwinTwo : GithubAsset :=
  ⟨2, "tool-linux.tar.gz".toList, "https://example.com/t2".toList, 100,
    some ("uploaded".toList)⟩

/-- A release whose only two assets tie exactly under ranking. -/
def demoAmbiguousRelease : GithubRelease :=
  ⟨"v1.0.0".toList, [demoAssetTwinOne, demoAssetTwinTwo]⟩

/-! ### installers/mod.rs — sanitize_component -/

/-- The character class kept verbatim by sanitize_component:
`[A-Za-z0-9._-]` (installers/mod.rs). -/
def isSanitizeKept (ch : Char) : Bool :=
  (('a' ≤ ch && ch ≤ 'z') || ('A' ≤ ch && ch ≤ 'Z') || ('0' ≤ ch && ch ≤ '9')
    || ch == '.' || ch == '-' || ch == '_')

/-- The per-character mapping of sanitize_component: kept characters stay,
every other character becomes a dash. -/
def sanitizeMap (ch : Char) : Char :=
  if isSanitizeKept ch then ch else '-'

/-- sanitize_component (installers/mod.rs): map each character through
`sanitizeMap`; if the result trimmed of dashes is empty, return
"default". -/
def sanitize_component (value : Str) : Str :=
  let result := value.map sanitizeMap
  if trimMatchesChar '-' result |>.isEmpty then "default".toList else result

/-- Map to dashes while collapsing each run of non-kept characters to a
single dash (used only by the C8 claim-side sanitizer). -/
def collapseRuns : Str → Str
  | [] => []
  | [c] => if isSanitizeKept c then [c] else ['-']
  | a :: b :: rest =>
    if isSanitizeKept a then a :: collapseRuns (b :: rest)
    else if isSanitizeKept b then '-' :: collapseRuns (b :: rest)
    else collapseRuns (b :: rest)

/-- C8 claim-side sanitizer, following the claim words: every character
outside the class maps to a dash, with a whole run of consecutive
non-matching characters collapsing to a single dash. -/
def sanitizeRunsSpec (value : Str) : Str :=
  let result := collapseRuns value
  if trimMatchesChar '-' result |>.isEmpty then "default".toList else result

/-! ### installers/github.rs — resolve_binary_path -/

/-- A path relative to the extraction root, as a list of components. -/
abbrev RelPath := List Str

/-- Whether a relative path exists under the extraction root, whose files
are given as component lists: it is a file, or a directory containing one
(Rust `Path::exists`). -/
def pathExistsUnder (files : List RelPath) (p : RelPath) : Bool :=
  files.any (fun f => p.isPrefixOf f)

/-- Whether a source string is an absolute path (Rust
`Path::is_absolute`). -/
def isAbsolutePath (source : Str) : Bool :=
  match source with
  | c :: _ => c == '/'
  | [] => false

/-- Path components of a declared source (Rust `Path::components` on the
relative paths that occur here: split on the separator, empty components
dropped). -/
def splitPath (source : Str) : List Str :=
  (splitOnPred (fun c => c == '/') source).filter (fun part => !part.isEmpty)

/-- Failure cases of resolve_binary_path (installers/github.rs). -/
inductive ResolveError where
  | absolutePath
  | notFoundSearch
  | multipleMatches
  | notFoundRelative
deriving DecidableEq, Repr

/-- resolve_binary_path (installers/github.rs): absolute sources are
rejected; a source that exists verbatim under the extraction root is
returned directly; otherwise a single-component (bare) source is searched
for in the whole tree by exact file-name equality, demanding exactly one
match; a multi-component source that does not exist fails without any
search. -/
def resolve_binary_path (files : List RelPath) (source : Str) :
    Except ResolveError RelPath :=
  if isAbsolutePath source then .error .absolutePath
  else
    let relative := splitPath source
    if pathExistsUnder files relative then .ok relative
    else if relative.length = 1 then
      match files.filter (fun f => f.getLastD [] == relative.headD []) with
      | [m] => .ok m
      | [] => .error .notFoundSearch
      | _ => .error .multipleMatches
    else .error .notFoundRelative

/-- C5 claim-side search matches for a bare name: files whose name equals
the bare name exactly or with a `.exe` suffix (the claim words; the code
has no `.exe` clause). -/
def claimSearchMatches (files : List RelPath) (bare : Str) : List RelPath :=
  files.filter (fun f => f.getLastD [] == bare || f.getLastD [] == bare ++ (".exe".toList))

/-! ### toolset.rs — manifest model, filters and resolution -/

/-- InstallerKind (toolset.rs). -/
inductive InstallerKind where
  | dmg
  | flatpak
  | curl
  | github
  | gitlab
  | script
deriving DecidableEq, Repr

/-- ToolBinary (toolset.rs). -/
structure ToolBinary where
  source : Str
  link : Option Str
deriving DecidableEq, Repr

/-- ExtraKind (toolset.rs). -/
inductive ExtraKind where
  | man
  | completion
  | other
deriving DecidableEq, Repr

/-- ToolExtra (toolset.rs). -/
structure ToolExtra where
  source : Str
  kind : ExtraKind
  shell : Option Str
  target : Option Str
deriving DecidableEq, Repr

/-- ToolSpecToml (toolset.rs): one tool as declared in a manifest. -/
structure ToolSpecToml where
  installer : InstallerKind
  project : Option Str
  version : Option Str
  url : Option Str
  shell : Option Str
  bin : List ToolBinary
  extras : List ToolExtra
  asset_filter : List Str
  checksum : Option Str
  app : Option Str
  team_id : Option Str
  self_update : Bool
  platforms : List Str
  hosts : List Str
deriving DecidableEq, Repr

/-- ToolDefinition (toolset.rs): a ToolSpecToml with its name attached. -/
structure ToolDefinition where
  name : Str
  installer : InstallerKind
  project : Option Str
  version : Option Str
  url : Option Str
  shell : Option Str
  bin : List ToolBinary
  extras : List ToolExtra
  asset_filter : List Str
  checksum : Option Str
  app : Option Str
  team_id : Option Str
  self_update : Bool
  platforms : List Str
  hosts : List Str
deriving DecidableEq, Repr

/-- ToolSpecToml::applies_to (toolset.rs): the platform list is empty or
meets the platform tags, and the hosts list is empty or contains the host
slug (no slug available means a non-empty hosts list never applies). -/
def ToolSpecToml.applies_to (spec : ToolSpecToml) (platformTags : List Str)
    (hostSlug : Option Str) : Bool :=
  if !(spec.platforms.isEmpty || spec.platforms.any (fun f => platformTags.contains f)) then
    false
  else if spec.hosts.isEmpty then true
  else
    match hostSlug with
    | none => false
    | some slug => spec.hosts.any (fun candidate => candidate == slug)

/-- ToolSpecToml::into_definition (toolset.rs): attach the name; every
other field is copied across unchanged. -/
def ToolSpecToml.into_definition (spec : ToolSpecToml) (name : Str) : ToolDefinition :=
  { name := name
    installer := spec.installer
    project := spec.project
    version := spec.version
    url := spec.url
    shell := spec.shell
    bin := spec.bin
    extras := spec.extras
    asset_filter := spec.asset_filter
    checksum := spec.checksum
    app := spec.app
    team_id := spec.team_id
    self_update := spec.self_update
    platforms := spec.platforms
    hosts := spec.hosts }

/-- normalize_filter (toolset.rs): trim and ASCII-lowercase one filter
value. -/
def normalize_filter (value : Str) : Str :=
  lowerStr (trimStr value)

/-- The per-spec part of normalize_tool_filters (toolset.rs): normalize the
platform and hosts lists, leaving every other field untouched. -/
def normalizeSpecFilters (spec : ToolSpecToml) : ToolSpecToml :=
  { spec with
    platforms := spec.platforms.map normalize_filter
    hosts := spec.hosts.map normalize_filter }

/-- normalize_tool_filters (toolset.rs) over a whole config map, modelled as
an association list from tool name to spec. -/
def normalize_tool_filters (tools : List (Str × ToolSpecToml)) :
    List (Str × ToolSpecToml) :=
  tools.map (fun nv => (nv.1, normalizeSpecFilters nv.2))

/-- ToolEntry (toolset.rs): resolved definition plus the manifest file it
came from. -/
structure ToolEntry where
  source : Str
  definition : ToolDefinition
deriving DecidableEq, Repr

/-- Insertion into a name-keyed association list (the BTreeMap::insert used
by ToolSet::from_configs; iteration order differs from the BTreeMap but the
key-to-value mapping is the same). -/
def insertAL (l : List (Str × ToolEntry)) (k : Str) (v : ToolEntry) :
    List (Str × ToolEntry) :=
  match l with
  | [] => [(k, v)]
  | (k2, v2) :: rest => if k2 == k then (k, v) :: rest else (k2, v2) :: insertAL rest k v

/-- Lookup in an association list keyed by tool name. -/
def lookupAL {α : Type} (l : List (Str × α)) (k : Str) : Option α :=
  match l with
  | [] => none
  | (k2, v) :: rest => if k2 == k then some v else lookupAL rest k

/-- One pass of ToolSet::from_configs (toolset.rs): insert every applying
entry of one (already normalized) config into the accumulator. -/
def insertApplying (source : Str) (tools : List (Str × ToolSpecToml))
    (platformTags : List Str) (hostSlug : Option Str)
    (acc : List (Str × ToolEntry)) : List (Str × ToolEntry) :=
  tools.foldl
    (fun acc nv =>
      if nv.2.applies_to platformTags hostSlug then
        insertAL acc nv.1 ⟨source, nv.2.into_definition nv.1⟩
      else acc)
    acc

/-- ToolSet::from_configs (toolset.rs): normalize the filters of both
configs, insert the applying profile entries, then insert the applying
workspace entries over them.  The platform tags and host slug are
parameters (the Rust code computes them from the environment). -/
def from_configs (profileSource : Str) (profileTools : List (Str × ToolSpecToml))
    (workspaceSource : Str) (workspaceTools : List (Str × ToolSpecToml))
    (platformTags : List Str) (hostSlug : Option Str) : List (Str × ToolEntry) :=
  let profileNorm := normalize_tool_filters profileTools
  let workspaceNorm := normalize_tool_filters workspaceTools
  let entries := insertApplying profileSource profileNorm platformTags hostSlug []
  insertApplying workspaceSource workspaceNorm platformTags hostSlug entries

/-- A concrete profile tool spec used by witness evaluations: ripgrep
pinned to 14.0.0, no filters. -/
def demoProfileSpec : ToolSpecToml :=
  ⟨.github, some ("BurntSushi/ripgrep".toList), some ("14.0.0".toList), none, none,
    [⟨"rg".toList, none⟩], [], [("linux".toList)], none, none, none, false, [], []⟩

/-- A concrete workspace-override tool spec used by witness evaluations:
ripgrep at latest, restricted to a platform filter written in mixed case
with padding. -/
def demoWorkspaceSpec : ToolSpecToml :=
  ⟨.github, some ("BurntSushi/ripgrep".toList), none, none, none,
    [⟨"rg".toList, none⟩], [], [("linux".toList)], none, none, none, false,
    [(" LINUX ".toList)], []⟩

/-! ### toolset.rs — platform tags and host slug -/

/-- The value cleanup of linux_distribution_tags (toolset.rs): strip
surrounding double quotes, trim, ASCII-lowercase. -/
def osReleaseClean (value : Str) : Str :=
  lowerStr (trimStr (trimMatchesChar '"' value))

/-- Lookup of a (lowercased) key in the parsed /etc/os-release lines
(toolset.rs builds a HashMap, so a later line with the same key wins). -/
def osReleaseValue (kvs : List (Str × Str)) (key : Str) : Option Str :=
  (kvs.reverse.find? (fun kv => lowerStr kv.1 == key)).map (fun kv => osReleaseClean kv.2)

/-- linux_distribution_tags (toolset.rs), taking the key=value lines of
/etc/os-release already split at the first `=`: the ID value, then every
non-empty comma/whitespace-separated item of ID_LIKE, lowercased. -/
def linux_distribution_tags (kvs : List (Str × Str)) : List Str :=
  (match osReleaseValue kvs ("id".toList) with
   | some id => [id]
   | none => [])
  ++ (match osReleaseValue kvs ("id_like".toList) with
      | some idLike =>
        (((splitOnPred (fun c => isWhitespaceChar c || c == ',') idLike).map trimStr).filter
          (fun part => !part.isEmpty)).map lowerStr
      | none => [])

/-- platform_tags (toolset.rs), parametrized by the compile-time os and
arch strings and the parsed /etc/os-release lines: the normalized os, the
os-arch pair, `linux-<distro>` tags on Linux, and the `darwin` alias on
macOS.  The Rust HashSet is modelled as a list (possible duplicates do not
affect membership). -/
def platform_tags (os arch : Str) (osRelease : List (Str × Str)) : List Str :=
  let osn := normalize_filter os
  let base := [osn, osn ++ ('-' :: normalize_filter arch)]
  let withLinux :=
    if osn == "linux".toList then
      base ++ (linux_distribution_tags osRelease).map (fun d => ("linux-".toList) ++ d)
    else base
  if osn == "macos".toList then withLinux ++ [("darwin".toList)] else withLinux

/-- The slug-building loop of host_slug (toolset.rs): ASCII-alphanumeric
characters are lowercased and kept, every run of other characters collapses
to one dash. -/
def hostSlugChars : Str → Bool → Str
  | [], _ => []
  | c :: rest, previousDash =>
    if isAlnumAscii c then toLowerAscii c :: hostSlugChars rest false
    else if previousDash then hostSlugChars rest true
    else '-' :: hostSlugChars rest true

/-- host_slug (toolset.rs), given the raw hostname the code obtained (its
fallback chain over environment variables ends in "local" and is outside
this model): build the slug, trim dashes, default to "local" when empty. -/
def host_slug (raw : Str) : Str :=
  let slug := trimMatchesChar '-' (hostSlugChars raw false)
  if slug.isEmpty then "local".toList else slug

/-! ### lockfile.rs — data model and TOML (de)serialization

Lockfile::save serializes with `toml::to_string_pretty` (derived serde
Serialize) and Lockfile::load parses with `toml::from_str` (derived serde
Deserialize).  The TOML layer is modelled at the serde data-model level: a
value tree of strings, integers, arrays and tables; the text rendering and
file transport of that tree are assumed faithful. -/

/-- SymlinkEntry (lockfile.rs); paths are strings. -/
structure SymlinkEntry where
  source : Str
  target : Str
deriving DecidableEq, Repr

/-- BinaryLink (lockfile.rs). -/
structure BinaryLink where
  link : Str
  source : Str
  target : Str
deriving DecidableEq, Repr

/-- ExtraLink (lockfile.rs). -/
structure ExtraLink where
  kind : Str
  source : Str
  target : Str
deriving DecidableEq, Repr

/-- ToolReceipt (lockfile.rs). -/
structure ToolReceipt where
  name : Str
  manifest_version : Str
  resolved_version : Str
  installer_kind : Str
  installed_at : Str
  binaries : List BinaryLink
  extras : List ExtraLink
deriving DecidableEq, Repr

/-- Lockfile (lockfile.rs): schema version, metadata timestamp, config
symlinks and tool receipts. -/
structure Lockfile where
  version : Nat
  installed_at : Str
  config_symlinks : List SymlinkEntry
  tool_receipts : List ToolReceipt
deriving DecidableEq, Repr

/-- TOML values at the serde data-model level. -/
inductive TomlValue where
  | vStr (s : Str)
  | vNat (n : Nat)
  | vArr (elems : List TomlValue)
  | vTable (fields : List (Str × TomlValue))

/-- Serialization of a SymlinkEntry (derived serde Serialize). -/
def encodeSymlinkEntry (e : SymlinkEntry) : TomlValue :=
  .vTable [("source".toList, .vStr e.source), ("target".toList, .vStr e.target)]

/-- Deserialization of a SymlinkEntry (derived serde Deserialize). -/
def decodeSymlinkEntry : TomlValue → Option SymlinkEntry
  | .vTable [(k1, .vStr s), (k2, .vStr t)] =>
    if k1 = "source".toList ∧ k2 = "target".toList then some ⟨s, t⟩ else none
  | _ => none

/-- Serialization of a BinaryLink. -/
def encodeBinaryLink (b : BinaryLink) : TomlValue :=
  .vTable [("link".toList, .vStr b.link), ("source".toList, .vStr b.source),
    ("target".toList, .vStr b.target)]

/-- Deserialization of a BinaryLink. -/
def decodeBinaryLink : TomlValue → Option BinaryLink
  | .vTable [(k1, .vStr l), (k2, .vStr s), (k3, .vStr t)] =>
    if k1 = "link".toList ∧ k2 = "source".toList ∧ k3 = "target".toList then
      some ⟨l, s, t⟩
    else none
  | _ => none

/-- Serialization of an ExtraLink. -/
def encodeExtraLink (e : ExtraLink) : TomlValue :=
  .vTable [("kind".toList, .vStr e.kind), ("source".toList, .vStr e.source),
    ("target".toList, .vStr e.target)]

/-- Deserialization of an ExtraLink. -/
def decodeExtraLink : TomlValue → Option ExtraLink
  | .vTable [(k1, .vStr kd), (k2, .vStr s), (k3, .vStr t)] =>
    if k1 = "kind".toList ∧ k2 = "source".toList ∧ k3 = "target".toList then
      some ⟨kd, s, t⟩
    else none
  | _ => none

/-- Decode every element of a serialized list, failing if any element
fails. -/
def decodeAll {α : Type} (dec : TomlValue → Option α) : List TomlValue → Option (List α)
  | [] => some []
  | v :: rest =>
    match dec v with
    | some a => (decodeAll dec rest).map (a :: ·)
    | none => none

/-- Serialization of a ToolReceipt. -/
def encodeToolReceipt (r : ToolReceipt) : TomlValue :=
  .vTable [("name".toList, .vStr r.name),
    ("manifest_version".toList, .vStr r.manifest_version),
    ("resolved_version".toList, .vStr r.resolved_version),
    ("installer_kind".toList, .vStr r.installer_kind),
    ("installed_at".toList, .vStr r.installed_at),
    ("binaries".toList, .vArr (r.binaries.map encodeBinaryLink)),
    ("extras".toList, .vArr (r.extras.map encodeExtraLink))]

/-- Deserialization of a ToolReceipt. -/
def decodeToolReceipt : TomlValue → Option ToolReceipt
  | .vTable [(k1, .vStr n), (k2, .vStr mv), (k3, .vStr rv), (k4, .vStr ik),
      (k5, .vStr ia), (k6, .vArr bs), (k7, .vArr es)] =>
    if k1 = "name".toList ∧ k2 = "manifest_version".toList
        ∧ k3 = "resolved_version".toList ∧ k4 = "installer_kind".toList
        ∧ k5 = "installed_at".toList ∧ k6 = "binaries".toList
        ∧ k7 = "extras".toList then
      match decodeAll decodeBinaryLink bs, decodeAll decodeExtraLink es with
      | some binaries, some extras => some ⟨n, mv, rv, ik, ia, binaries, extras⟩
      | _, _ => none
    else none
  | _ => none

/-- Lockfile::save (lockfile.rs) at the serde data-model level. -/
def lockfileSave (lf : Lockfile) : TomlValue :=
  .vTable [("version".toList, .vNat lf.version),
    ("metadata".toList, .vTable [("installed_at".toList, .vStr lf.installed_at)]),
    ("config_symlinks".toList, .vArr (lf.config_symlinks.map encodeSymlinkEntry)),
    ("tool_receipts".toList, .vArr (lf.tool_receipts.map encodeToolReceipt))]

/-- Lockfile::load (lockfile.rs) at the serde data-model level. -/
def lockfileLoad : TomlValue → Option Lockfile
  | .vTable [(k1, .vNat version), (k2, .vTable [(km, .vStr ia)]),
      (k3, .vArr symlinks), (k4, .vArr receipts)] =>
    if k1 = "version".toList ∧ k2 = "metadata".toList ∧ km = "installed_at".toList
        ∧ k3 = "config_symlinks".toList ∧ k4 = "tool_receipts".toList then
      match decodeAll decodeSymlinkEntry symlinks, decodeAll decodeToolReceipt receipts with
      | some config_symlinks, some tool_receipts =>
        some ⟨version, ia, config_symlinks, tool_receipts⟩
      | _, _ => none
    else none
  | _ => none

/-! ### installers/mod.rs — GithubInstaller::install, checksum phase

The download oracle gives the digest (a natural number standing for the 32
SHA-256 bytes) of each successive download; the cache state records the
digest of the already-present asset file, if any.  Archive extraction and
symlink creation cannot fail in this model (the claim under verification
concerns the checksum phase, which precedes both). -/

/-- Success with the accepted digest, or the checksum-mismatch failure
carrying the expected and the actual digest (both formatted in hex by the
code's error message). -/
inductive ChecksumResult where
  | accepted (digest : Nat)
  | mismatch (expected actual : Nat)
deriving DecidableEq, Repr

/-- Outcome of one GithubInstaller::install run (installers/mod.rs),
projected to the facts the checksum claims are about. -/
structure GithubInstallOutcome where
  /-- Whether the checksum phase accepted a digest or failed. -/
  result : ChecksumResult
  /-- How many downloads this run performed. -/
  downloadsUsed : Nat
  /-- Whether the mismatching asset file was deleted before the retry. -/
  removedBadFile : Bool
  /-- Link names of the binary symlinks created for the tool. -/
  linksCreated : List Str
  /-- Whether a tool receipt was recorded in the lockfile. -/
  receiptRecorded : Bool
deriving Repr, DecidableEq

/-- GithubInstaller::install (installers/mod.rs), checksum phase onward: an
existing cached asset is re-hashed instead of downloaded; on digest
mismatch the bad file is removed and exactly one fresh download happens; a
second mismatch fails with both digests, before any symlink or receipt;
otherwise links are created and one receipt is recorded. -/
def github_install (checksum : Nat) (cached : Option Nat) (downloads : Nat → Nat)
    (links : List Str) : GithubInstallOutcome :=
  let firstDigest := match cached with
    | some d => d
    | none => downloads 0
  let firstDownloads := match cached with
    | some _ => 0
    | none => 1
  if firstDigest = checksum then
    { result := .accepted firstDigest
      downloadsUsed := firstDownloads
      removedBadFile := false
      linksCreated := links
      receiptRecorded := true }
  else
    let retryDigest := downloads firstDownloads
    if retryDigest = checksum then
      { result := .accepted retryDigest
        downloadsUsed := firstDownloads + 1
        removedBadFile := true
        linksCreated := links
        receiptRecorded := true }
    else
      { result := .mismatch checksum retryDigest
        downloadsUsed := firstDownloads + 1
        removedBadFile := true
        linksCreated := []
        receiptRecorded := false }

/-- A concrete receipt used by witness evaluations. -/
def demoReceipt : ToolReceipt :=
  ⟨"tool".toList, "latest".toList, "v1.0.0".toList, "github".toList,
    "2026-01-01T00:00:00Z".toList, [], []⟩

/-! ### workspace.rs — sequential task execution and lockfile persistence -/

/-- One tool install task (workspace.rs ToolInstallTask), with the outcome
of its installer run abstracted: a successful run appends one receipt to
the in-memory lockfile, a failed one appends nothing. -/
structure ToolTaskModel where
  name : Str
  receipt : ToolReceipt
  succeeds : Bool
deriving DecidableEq, Repr

/-- Workspace::execute_tool_tasks (workspace.rs): run the tasks strictly in
order against the in-memory receipt list; the first failure aborts with
that tool's name, otherwise the updated receipts and the names of the
installed tools are returned in order. -/
def execute_tool_tasks (tasks : List ToolTaskModel) (receipts : List ToolReceipt) :
    Except Str (List ToolReceipt × List Str) :=
  match tasks with
  | [] => .ok (receipts, [])
  | t :: rest =>
    if t.succeeds then
      match execute_tool_tasks rest (receipts ++ [t.receipt]) with
      | .ok (final, names) => .ok (final, t.name :: names)
      | .error e => .error e
    else .error t.name

/-- The tools whose installer actually runs during execute_tool_tasks, in
order: everything before the first failure, plus the failing tool itself. -/
def attemptedTools (tasks : List ToolTaskModel) : List Str :=
  match tasks with
  | [] => []
  | t :: rest => if t.succeeds then t.name :: attemptedTools rest else [t.name]

/-- Workspace::install (workspace.rs), projected to lockfile persistence:
a fresh in-memory lockfile receipt list is built by running every task;
only when every task succeeded is it saved over the previously persisted
one.  Returns the run result and the persisted lockfile receipt list after
the run. -/
def workspace_install (persisted : Option (List ToolReceipt))
    (tasks : List ToolTaskModel) : Except Str Unit × Option (List ToolReceipt) :=
  match execute_tool_tasks tasks [] with
  | .ok (final, _) => (.ok (), some final)
  | .error e => (.error e, persisted)

/-! ### workspace.rs — update_tools planning -/

/-- The per-tool inputs of Workspace::update_tools (workspace.rs): the
resolved definition fields the planning consults. -/
structure UpdateToolDef where
  name : Str
  self_update : Bool
  version : Option Str
  installer : InstallerKind
deriving DecidableEq, Repr

/-- One lockfile tool entry as consulted by update planning: recorded
version and whether every recorded source/target path is intact on disk
(source exists, target exists and is a symlink). -/
structure LockToolEntry where
  name : Str
  version : Str
  pathsIntact : Bool
deriving DecidableEq, Repr

/-- An update/install task (workspace.rs ToolInstallTask): name plus the
version create_installer reported, which is the manifest version field of
the definition (installers/mod.rs create_installer). -/
structure UpdateTask where
  name : Str
  resolved_version : Option Str
deriving DecidableEq, Repr

/-- The candidate filter of Workspace::update_tools: tools with
self_update, and tools pinned to an explicit version, are skipped with an
informational message. -/
def updateCandidates (tools : List UpdateToolDef) : List UpdateToolDef :=
  tools.filter (fun t => !t.self_update && t.version.isNone)

/-- The informational skip messages of update planning: names skipped for
self_update and names skipped for a version pin. -/
def updateSkipped (tools : List UpdateToolDef) : List Str × List Str :=
  ((tools.filter (fun t => t.self_update)).map (fun t => t.name),
   (tools.filter (fun t => !t.self_update && t.version.isSome)).map (fun t => t.name))

/-- Workspace::build_tool_tasks via create_installer (installers/mod.rs):
only the github backend exists; its dispatch carries the definition's
manifest version as resolved_version.  Other installer kinds produce no
task (skipped with a warning). -/
def buildToolTasks (tools : List UpdateToolDef) : List UpdateTask :=
  tools.filterMap (fun t =>
    if t.installer = InstallerKind.github then some ⟨t.name, t.version⟩ else none)

/-- The already-current filter of Workspace::update_tools: a task is
dropped (skipped as already at its version) only when it has a resolved
version, the lockfile has entries for the tool, every entry records that
same version, and no recorded path is missing. -/
def filterUpdateTasks (tasks : List UpdateTask) (lockEntries : List LockToolEntry) :
    List UpdateTask :=
  tasks.filter (fun task =>
    match task.resolved_version with
    | some resolved =>
      let entries := lockEntries.filter (fun e => e.name == task.name)
      if entries.isEmpty then true
      else
        let version_matches := entries.all (fun e => e.version == resolved)
        let missing_paths := entries.any (fun e => !e.pathsIntact)
        !(version_matches && !missing_paths)
    | none => true)

/-- The whole update planning pipeline of Workspace::update_tools: filter
candidates, build tasks, drop already-current tasks.  What remains is
reinstalled. -/
def updatePlan (tools : List UpdateToolDef) (lockEntries : List LockToolEntry) :
    List UpdateTask :=
  filterUpdateTasks (buildToolTasks (updateCandidates tools)) lockEntries

/-- A manifest filter value as it might be written: some string with the
same letters as the canonical value up to ASCII case, surrounded by
whitespace. -/
def writtenVariant (canonical written : Str) : Prop :=
  ∃ l r y, (∀ c ∈ l, isWhitespaceChar c = true) ∧ (∀ c ∈ r, isWhitespaceChar c = true) ∧
    lowerStr y = lowerStr canonical ∧ written = l ++ y ++ r

/-! ## Theorems -/

/-! ### Shared helper lemmas -/

theorem trimMatchesChar_eq_nil_iff (ch : Char) (s : Str) :
    trimMatchesChar ch s = [] ↔ ∀ x ∈ s, x = ch := by
  unfold trimMatchesChar
  simp only [List.reverse_eq_nil_iff, List.dropWhile_eq_nil_iff, List.mem_reverse, beq_iff_eq]
  constructor
  · intro h x hx
    rw [← List.takeWhile_append_dropWhile (fun c => c == ch) s] at hx
    rcases List.mem_append.mp hx with h1 | h2
    · have h2 := List.mem_takeWhile_imp h1
      simp only [beq_iff_eq] at h2
      exact h2
    · exact h x h2
  · intro h x hx
    exact h x (List.dropWhile_subset _ hx)

theorem sanitizeMap_kept (c : Char) : isSanitizeKept (sanitizeMap c) = true := by
  unfold sanitizeMap
  by_cases h : isSanitizeKept c = true
  · simpa [h]
  · simp [h]
    decide

/-! ### C8 — sanitize_component -/

/-- C8 (corrected claim, proved): sanitize_component maps each character
outside `[A-Za-z0-9._-]` to its own dash (runs are not collapsed); an input
whose mapped form is all dashes — in particular the empty input — yields
"default", otherwise the mapped form itself is returned and contains only
characters of the class; sanitize_component of "" and "///" is "default"
and of "Hello World!" is "Hello-World-". -/
theorem sanitize_component_spec :
    (∀ value : Str, (∀ x ∈ value.map sanitizeMap, x = '-') →
      sanitize_component value = "default".toList) ∧
    (∀ value : Str, ¬ (∀ x ∈ value.map sanitizeMap, x = '-') →
      sanitize_component value = value.map sanitizeMap) ∧
    (∀ value : Str, ∀ c ∈ sanitize_component value, isSanitizeKept c = true) ∧
    sanitize_component [] = "default".toList ∧
    sanitize_component ("///".toList) = "default".toList ∧
    sanitize_component ("Hello World!".toList) = ("Hello-World-".toList) := by
  have hbranch : ∀ value : Str,
      sanitize_component value = "default".toList ∨
        (¬ (∀ x ∈ value.map sanitizeMap, x = '-') ∧
          sanitize_component value = value.map sanitizeMap) := by
    intro value
    unfold sanitize_component
    by_cases h : trimMatchesChar '-' (value.map sanitizeMap) = []
    · left
      simp [h]
    · right
      refine ⟨fun hall => h ((trimMatchesChar_eq_nil_iff '-' _).mpr hall), ?_⟩
      simp [List.isEmpty_iff, h]
  refine ⟨?_, ?_, ?_, by decide, by decide, by decide⟩
  · intro value hall
    unfold sanitize_component
    simp [List.isEmpty_iff, (trimMatchesChar_eq_nil_iff '-' _).mpr hall]
  · intro value hnot
    rcases hbranch value with h | ⟨_, h⟩
    · unfold sanitize_component at h ⊢
      by_cases hc : trimMatchesChar '-' (value.map sanitizeMap) = []
      · exact absurd ((trimMatchesChar_eq_nil_iff '-' _).mp hc) hnot
      · simp [List.isEmpty_iff, hc]
    · exact h
  · intro value c hc
    rcases hbranch value with h | ⟨_, h⟩
    · rw [h] at hc
      exact (by decide : ∀ x ∈ "default".toList, isSanitizeKept x = true) c hc
    · rw [h] at hc
      rcases List.mem_map.mp hc with ⟨x, _, rfl⟩
      exact sanitizeMap_kept x

/-- C8 witness: the hypotheses of both conditional branches hold at
concrete inputs. -/
theorem sanitize_component_spec_witness :
    sanitize_component ("!!".toList) = "default".toList ∧
    sanitize_component ("a b".toList) = ('a' :: '-' :: 'b' :: []) := by
  constructor
  · exact sanitize_component_spec.1 ("!!".toList) (by decide)
  · rw [sanitize_component_spec.2.1 ("a b".toList) (by decide)]
    decide

/-- C8 counterexample: on "a!!b" the code returns "a--b" — the run of two
non-matching characters becomes two dashes, not the single dash the claim
describes (the claim-side sanitizer gives "a-b"). -/
theorem sanitize_component_counterexample :
    sanitize_component ("a!!b".toList) = ("a--b".toList) ∧
    sanitizeRunsSpec ("a!!b".toList) = ("a-b".toList) ∧
    sanitize_component ("a!!b".toList) ≠ sanitizeRunsSpec ("a!!b".toList) := by
  decide

/-! ### C5 — resolve_binary_path -/

/-- C5 counterexample: the code searches a bare name only by exact
file-name equality.  With the extracted tree holding exactly the single
file `tool.exe` and declared source `tool`, the claim counts exactly one
match (the `.exe` variant) and so predicts successful resolution, but
resolve_binary_path fails with a not-found error. -/
theorem resolve_binary_path_counterexample :
    (claimSearchMatches [[("tool.exe".toList)]] ("tool".toList)).length = 1 ∧
    resolve_binary_path [[("tool.exe".toList)]] ("tool".toList) =
      .error .notFoundSearch := by
  decide

/-- C5 (corrected claim, proved): a relative source that exists verbatim
under the extraction root is returned immediately without any search (even
a bare name); otherwise a bare name is searched for in the whole tree by
exact name equality (no `.exe` variant) and exactly one match is required —
zero and multiple matches are both errors; a source with a path separator
that does not exist verbatim fails without search. -/
theorem resolve_binary_path_spec (files : List RelPath) (source : Str)
    (habs : isAbsolutePath source = false) :
    (pathExistsUnder files (splitPath source) = true →
      resolve_binary_path files source = .ok (splitPath source)) ∧
    (∀ m : RelPath, pathExistsUnder files (splitPath source) = false →
      (splitPath source).length = 1 →
      files.filter (fun f => f.getLastD [] == (splitPath source).headD []) = [m] →
      resolve_binary_path files source = .ok m) ∧
    (pathExistsUnder files (splitPath source) = false →
      (splitPath source).length = 1 →
      files.filter (fun f => f.getLastD [] == (splitPath source).headD []) = [] →
      resolve_binary_path files source = .error .notFoundSearch) ∧
    (pathExistsUnder files (splitPath source) = false →
      (splitPath source).length = 1 →
      2 ≤ (files.filter (fun f => f.getLastD [] == (splitPath source).headD [])).length →
      resolve_binary_path files source = .error .multipleMatches) ∧
    (pathExistsUnder files (splitPath source) = false →
      (splitPath source).length ≠ 1 →
      resolve_binary_path files source = .error .notFoundRelative) := by
  refine ⟨?_, ?_, ?_, ?_, ?_⟩
  · intro hex
    unfold resolve_binary_path
    simp only [habs, Bool.false_eq_true, if_false]
    rw [if_pos hex]
  · intro m hex hlen hfilter
    unfold resolve_binary_path
    simp only [habs, Bool.false_eq_true, if_false]
    rw [if_neg (by simp [hex]), if_pos hlen, hfilter]
  · intro hex hlen hfilter
    unfold resolve_binary_path
    simp only [habs, Bool.false_eq_true, if_false]
    rw [if_neg (by simp [hex]), if_pos hlen, hfilter]
  · intro hex hlen hfilter
    unfold resolve_binary_path
    simp only [habs, Bool.false_eq_true, if_false]
    rcases hmatch : files.filter (fun f => f.getLastD [] == (splitPath source).headD []) with
      _ | ⟨m1, _ | ⟨m2, rest⟩⟩
    · rw [hmatch] at hfilter
      simp at hfilter
    · rw [hmatch] at hfilter
      simp at hfilter
    · rw [if_neg (by simp [hex]), if_pos hlen, hmatch]
  · intro hex hlen
    unfold resolve_binary_path
    simp only [habs, Bool.false_eq_true, if_false]
    rw [if_neg (by simp [hex]), if_neg hlen]

/-- C5 witness: the corrected characterization applied at concrete trees. -/
theorem resolve_binary_path_spec_witness :
    resolve_binary_path [[("bin".toList), ("rg".toList)]] ("rg".toList) =
      .ok [("bin".toList), ("rg".toList)] ∧
    resolve_binary_path [[("bin".toList), ("rg".toList)], [("doc".toList), ("rg".toList)]]
      ("rg".toList) = .error .multipleMatches := by
  constructor
  · exact (resolve_binary_path_spec [[("bin".toList), ("rg".toList)]] ("rg".toList)
      (by decide)).2.1 [("bin".toList), ("rg".toList)] (by decide) (by decide) (by decide)
  · exact (resolve_binary_path_spec
      [[("bin".toList), ("rg".toList)], [("doc".toList), ("rg".toList)]] ("rg".toList)
      (by decide)).2.2.2.1 (by decide) (by decide) (by decide)

/-! ### C7 — update_tools planning -/

/-- C7 (code bug): every task that survives the update candidate filtering
has no task-level resolved version — create_installer reports the manifest
version field, and tools with such a pin were already skipped — so
filterUpdateTasks never drops a task and the already-at-version skip is
unreachable: an unpinned tool whose lockfile entry is at the matching
version with intact paths is still reinstalled (final conjunct shows a
concrete such run). -/
theorem update_plan_skip_never_fires :
    (∀ (tools : List UpdateToolDef) (lockEntries : List LockToolEntry),
      updatePlan tools lockEntries = buildToolTasks (updateCandidates tools)) ∧
    (∀ tools : List UpdateToolDef,
      (buildToolTasks (updateCandidates tools)).all
        (fun t => t.resolved_version.isNone) = true) ∧
    updatePlan [⟨"rg".toList, false, none, .github⟩]
      [⟨"rg".toList, "v14.1.0".toList, true⟩] = [⟨"rg".toList, none⟩] := by
  have hnone : ∀ tools : List UpdateToolDef,
      ∀ t ∈ buildToolTasks (updateCandidates tools), t.resolved_version = none := by
    intro tools t ht
    rcases List.mem_filterMap.mp ht with ⟨d, hd, hmk⟩
    rcases List.mem_filter.mp hd with ⟨_, hflag⟩
    by_cases hg : d.installer = InstallerKind.github
    · simp only [hg, if_pos] at hmk
      cases hmk
      simp only [Bool.and_eq_true, Option.isNone_iff_eq_none] at hflag
      exact hflag.2
    · simp [hg] at hmk
  refine ⟨?_, ?_, by decide⟩
  · intro tools lockEntries
    unfold updatePlan filterUpdateTasks
    apply List.filter_eq_self.mpr
    intro t ht
    simp only [hnone tools t ht]
  · intro tools
    rw [List.all_eq_true]
    intro t ht
    simp [Option.isNone_iff_eq_none, hnone tools t ht]

/-! ### C3 — GithubInstaller::install checksum retry -/

/-- C3: when the computed digest of the asset differs from the declared
checksum, the installer deletes the bad file and performs exactly one fresh
download; when the retried digest also mismatches, the install fails
carrying both digests (expected and actual), performs no further download,
creates no binary symlink and records no lockfile receipt. -/
theorem github_install_checksum_retry (checksum : Nat) (cached : Option Nat)
    (downloads : Nat → Nat) (links : List Str) (used : Nat)
    (hused : used = match cached with | some _ => 0 | none => 1)
    (hfirst : (match cached with | some d => d | none => downloads 0) ≠ checksum) :
    (github_install checksum cached downloads links).downloadsUsed = used + 1 ∧
    (github_install checksum cached downloads links).removedBadFile = true ∧
    (downloads used ≠ checksum →
      github_install checksum cached downloads links =
        ⟨.mismatch checksum (downloads used), used + 1, true, [], false⟩) := by
  cases cached with
  | none =>
    simp only at hused hfirst
    subst hused
    unfold github_install
    simp only
    rw [if_neg hfirst]
    by_cases h2 : downloads 1 = checksum
    · rw [if_pos h2]
      exact ⟨rfl, rfl, fun hc => absurd h2 hc⟩
    · rw [if_neg h2]
      exact ⟨rfl, rfl, fun _ => rfl⟩
  | some d =>
    simp only at hused hfirst
    subst hused
    unfold github_install
    simp only
    rw [if_neg hfirst]
    by_cases h2 : downloads 0 = checksum
    · rw [if_pos h2]
      exact ⟨rfl, rfl, fun hc => absurd h2 hc⟩
    · rw [if_neg h2]
      exact ⟨rfl, rfl, fun _ => rfl⟩

/-- C3 witness: a cached file with digest 7 against declared checksum 5 and
a download oracle that always produces 9. -/
theorem github_install_checksum_retry_witness :
    github_install 5 (some 7) (fun _ => 9) [("rg".toList)] =
      ⟨.mismatch 5 9, 1, true, [], false⟩ :=
  (github_install_checksum_retry 5 (some 7) (fun _ => 9) [("rg".toList)] 0
    (by decide) (by decide)).2.2 (by decide)

/-! ### C6 — sequential task execution, no save on failure -/

theorem execute_tool_tasks_error (pre post : List ToolTaskModel) (t : ToolTaskModel)
    (ht : t.succeeds = false) (hpre : ∀ u ∈ pre, u.succeeds = true) :
    ∀ receipts : List ToolReceipt,
      execute_tool_tasks (pre ++ t :: post) receipts = .error t.name := by
  induction pre with
  | nil =>
    intro receipts
    unfold execute_tool_tasks
    simp [ht]
  | cons u us ih =>
    intro receipts
    have hu : u.succeeds = true := hpre u (List.mem_cons_self u us)
    have ihr := ih (fun v hv => hpre v (List.mem_cons_of_mem u hv))
    unfold execute_tool_tasks
    simp only [List.cons_append, hu, if_true, ihr (receipts ++ [u.receipt])]

theorem attemptedTools_split (pre post : List ToolTaskModel) (t : ToolTaskModel)
    (ht : t.succeeds = false) (hpre : ∀ u ∈ pre, u.succeeds = true) :
    attemptedTools (pre ++ t :: post) = pre.map (fun u => u.name) ++ [t.name] := by
  induction pre with
  | nil =>
    unfold attemptedTools
    simp [ht]
  | cons u us ih =>
    have hu : u.succeeds = true := hpre u (List.mem_cons_self u us)
    have ihr := ih (fun v hv => hpre v (List.mem_cons_of_mem u hv))
    unfold attemptedTools
    simp only [List.cons_append, hu, if_true, ihr, List.map_cons]

/-- C6: install tasks run strictly sequentially — the tools attempted are
exactly those before the first failure plus the failing one — and a failure
aborts the run before the lockfile is saved, leaving the previously
persisted lockfile in place, so earlier successes of the batch are not
recorded anywhere durable. -/
theorem workspace_install_abort_on_failure (persisted : Option (List ToolReceipt))
    (pre post : List ToolTaskModel) (t : ToolTaskModel)
    (hpre : ∀ u ∈ pre, u.succeeds = true) (ht : t.succeeds = false) :
    (workspace_install persisted (pre ++ t :: post)).1 = .error t.name ∧
    (workspace_install persisted (pre ++ t :: post)).2 = persisted ∧
    attemptedTools (pre ++ t :: post) = pre.map (fun u => u.name) ++ [t.name] := by
  have hexec := execute_tool_tasks_error pre post t ht hpre []
  refine ⟨?_, ?_, attemptedTools_split pre post t ht hpre⟩
  · unfold workspace_install
    rw [hexec]
  · unfold workspace_install
    rw [hexec]

/-- C6 witness: a batch of a succeeding tool, a failing tool and a third
tool, run against a persisted lockfile that stays untouched. -/
theorem workspace_install_abort_on_failure_witness :
    (workspace_install (some [demoReceipt])
      ([⟨"a".toList, demoReceipt, true⟩] ++
        ⟨"b".toList, demoReceipt, false⟩ :: [⟨"c".toList, demoReceipt, true⟩])).1 =
      .error ("b".toList) ∧
    (workspace_install (some [demoReceipt])
      ([⟨"a".toList, demoReceipt, true⟩] ++
        ⟨"b".toList, demoReceipt, false⟩ :: [⟨"c".toList, demoReceipt, true⟩])).2 =
      some [demoReceipt] ∧
    attemptedTools
      ([⟨"a".toList, demoReceipt, true⟩] ++
        ⟨"b".toList, demoReceipt, false⟩ :: [⟨"c".toList, demoReceipt, true⟩]) =
      [("a".toList), ("b".toList)] :=
  workspace_install_abort_on_failure (some [demoReceipt])
    [⟨"a".toList, demoReceipt, true⟩] [⟨"c".toList, demoReceipt, true⟩]
    ⟨"b".toList, demoReceipt, false⟩ (by decide) (by decide)

/-! ### C9 — lockfile save/load round trip -/

theorem decodeSymlinkEntry_encode (e : SymlinkEntry) :
    decodeSymlinkEntry (encodeSymlinkEntry e) = some e := by
  simp [encodeSymlinkEntry, decodeSymlinkEntry]

theorem decodeBinaryLink_encode (b : BinaryLink) :
    decodeBinaryLink (encodeBinaryLink b) = some b := by
  simp [encodeBinaryLink, decodeBinaryLink]

theorem decodeExtraLink_encode (e : ExtraLink) :
    decodeExtraLink (encodeExtraLink e) = some e := by
  simp [encodeExtraLink, decodeExtraLink]

theorem decodeAll_map {α : Type} (dec : TomlValue → Option α) (enc : α → TomlValue)
    (h : ∀ x, dec (enc x) = some x) (l : List α) :
    decodeAll dec (l.map enc) = some l := by
  induction l with
  | nil => rfl
  | cons x xs ih => simp [decodeAll, h, ih]

theorem decodeToolReceipt_encode (r : ToolReceipt) :
    decodeToolReceipt (encodeToolReceipt r) = some r := by
  simp [encodeToolReceipt, decodeToolReceipt,
    decodeAll_map decodeBinaryLink encodeBinaryLink decodeBinaryLink_encode,
    decodeAll_map decodeExtraLink encodeExtraLink decodeExtraLink_encode]

/-- C9: saving a lockfile and loading it back succeeds and reproduces the
config symlinks and the tool receipts identically, order preserved (the
whole loaded value equals the saved one). -/
theorem lockfile_save_load_roundtrip (lf : Lockfile) :
    lockfileLoad (lockfileSave lf) = some lf := by
  simp [lockfileSave, lockfileLoad,
    decodeAll_map decodeSymlinkEntry encodeSymlinkEntry decodeSymlinkEntry_encode,
    decodeAll_map decodeToolReceipt encodeToolReceipt decodeToolReceipt_encode]

/-! ### C4 — workspace overrides replace profile entries wholesale -/

theorem lookupAL_nil {α : Type} (k : Str) : lookupAL ([] : List (Str × α)) k = none := rfl

theorem lookupAL_cons {α : Type} (k2 : Str) (v : α) (rest : List (Str × α)) (k : Str) :
    lookupAL ((k2, v) :: rest) k =
      if (k2 == k) = true then some v else lookupAL rest k := rfl

theorem lookupAL_insertAL_self (l : List (Str × ToolEntry)) (k : Str) (v : ToolEntry) :
    lookupAL (insertAL l k v) k = some v := by
  induction l with
  | nil =>
    unfold insertAL lookupAL
    rw [if_pos (beq_self_eq_true k)]
  | cons kv rest ih =>
    obtain ⟨k2, v2⟩ := kv
    unfold insertAL
    by_cases h : (k2 == k) = true
    · rw [if_pos h]
      unfold lookupAL
      rw [if_pos (beq_self_eq_true k)]
    · rw [if_neg h]
      unfold lookupAL
      rw [if_neg h]
      exact ih

theorem lookupAL_insertAL_ne (l : List (Str × ToolEntry)) (k k3 : Str) (v : ToolEntry)
    (h : k3 ≠ k) : lookupAL (insertAL l k v) k3 = lookupAL l k3 := by
  have hkk3 : ¬ ((k == k3) = true) := fun hc => h (eq_of_beq hc).symm
  induction l with
  | nil =>
    unfold insertAL
    rw [lookupAL_cons, if_neg hkk3]
  | cons kv rest ih =>
    obtain ⟨k2, v2⟩ := kv
    unfold insertAL
    by_cases h2 : (k2 == k) = true
    · rw [if_pos h2]
      have hk2 : k2 = k := eq_of_beq h2
      subst hk2
      unfold lookupAL
      rw [if_neg hkk3, if_neg hkk3]
    · rw [if_neg h2]
      unfold lookupAL
      by_cases h3 : (k2 == k3) = true
      · rw [if_pos h3, if_pos h3]
      · rw [if_neg h3, if_neg h3]
        exact ih

theorem lookupAL_eq_none {α : Type} (l : List (Str × α)) (k : Str)
    (h : k ∉ l.map Prod.fst) : lookupAL l k = none := by
  induction l with
  | nil => rfl
  | cons kv rest ih =>
    obtain ⟨k2, v2⟩ := kv
    simp only [List.map_cons, List.mem_cons] at h
    push_neg at h
    unfold lookupAL
    rw [if_neg (fun hc => h.1 (eq_of_beq hc).symm)]
    exact ih h.2

theorem insertApplying_lookup (source : Str) (tools : List (Str × ToolSpecToml))
    (tags : List Str) (host : Option Str) (k : Str)
    (hk : (tools.map Prod.fst).Nodup) :
    ∀ acc : List (Str × ToolEntry),
      lookupAL (insertApplying source tools tags host acc) k =
        match lookupAL tools k with
        | some spec =>
          if spec.applies_to tags host then some ⟨source, spec.into_definition k⟩
          else lookupAL acc k
        | none => lookupAL acc k := by
  induction tools with
  | nil => intro acc; rfl
  | cons kv rest ih =>
    obtain ⟨k2, spec2⟩ := kv
    intro acc
    simp only [List.map_cons, List.nodup_cons] at hk
    have step : insertApplying source ((k2, spec2) :: rest) tags host acc =
        insertApplying source rest tags host
          (if spec2.applies_to tags host then
            insertAL acc k2 ⟨source, spec2.into_definition k2⟩
          else acc) := by
      unfold insertApplying
      simp only [List.foldl_cons]
    rw [step, ih hk.2]
    by_cases hkk : (k2 == k) = true
    · have hk2k : k2 = k := eq_of_beq hkk
      subst hk2k
      have hrest : lookupAL rest k2 = none := lookupAL_eq_none rest k2 hk.1
      rw [hrest]
      have htools : lookupAL ((k2, spec2) :: rest) k2 = some spec2 := by
        rw [lookupAL_cons, if_pos (beq_self_eq_true k2)]
      rw [htools]
      by_cases happ : spec2.applies_to tags host = true
      · simp only [happ, if_true]
        exact lookupAL_insertAL_self acc k2 _
      · simp only [Bool.not_eq_true] at happ
        simp only [happ, Bool.false_eq_true, if_false]
    · have hne : k2 ≠ k := fun hc => absurd (beq_iff_eq.mpr hc) (by simp [hkk])
      have htools : lookupAL ((k2, spec2) :: rest) k = lookupAL rest k := by
        rw [lookupAL_cons, if_neg hkk]
      rw [htools]
      have hacc : lookupAL
          (if spec2.applies_to tags host then
            insertAL acc k2 ⟨source, spec2.into_definition k2⟩
          else acc) k = lookupAL acc k := by
        by_cases happ : spec2.applies_to tags host = true
        · simp only [happ, if_true]
          exact lookupAL_insertAL_ne acc k2 k _ (Ne.symm hne)
        · simp only [Bool.not_eq_true] at happ
          simp only [happ, Bool.false_eq_true, if_false]
      rw [hacc]

theorem lookupAL_normalize (tools : List (Str × ToolSpecToml)) (k : Str) :
    lookupAL (normalize_tool_filters tools) k =
      (lookupAL tools k).map normalizeSpecFilters := by
  induction tools with
  | nil => rfl
  | cons kv rest ih =>
    obtain ⟨k2, v2⟩ := kv
    unfold normalize_tool_filters at ih ⊢
    simp only [List.map_cons]
    unfold lookupAL
    by_cases h : (k2 == k) = true
    · simp [h]
    · simp [h, ih]

theorem normalize_keys (tools : List (Str × ToolSpecToml)) :
    (normalize_tool_filters tools).map Prod.fst = tools.map Prod.fst := by
  unfold normalize_tool_filters
  rw [List.map_map]
  rfl

theorem applies_to_iff (spec : ToolSpecToml) (tags : List Str) (host : Option Str) :
    spec.applies_to tags host = true ↔
      ((spec.platforms = [] ∨ ∃ t ∈ spec.platforms, t ∈ tags) ∧
        (spec.hosts = [] ∨ ∃ s, host = some s ∧ s ∈ spec.hosts)) := by
  constructor
  · intro h
    unfold ToolSpecToml.applies_to at h
    by_cases h1 : (spec.platforms.isEmpty
        || spec.platforms.any (fun f => tags.contains f)) = true
    · rw [h1] at h
      simp only [Bool.not_true, Bool.false_eq_true, if_false] at h
      have hplat : spec.platforms = [] ∨ ∃ t ∈ spec.platforms, t ∈ tags := by
        rcases Bool.or_eq_true_iff.mp h1 with he | ha
        · exact Or.inl (List.isEmpty_iff.mp he)
        · rcases List.any_eq_true.mp ha with ⟨t, ht, htag⟩
          exact Or.inr ⟨t, ht, List.elem_iff.mp htag⟩
      by_cases h2 : spec.hosts.isEmpty = true
      · exact ⟨hplat, Or.inl (List.isEmpty_iff.mp h2)⟩
      · rw [if_neg h2] at h
        cases host with
        | none => exact absurd h (by simp)
        | some slug =>
          rcases List.any_eq_true.mp h with ⟨c, hc, hcs⟩
          exact ⟨hplat, Or.inr ⟨slug, rfl, (eq_of_beq hcs) ▸ hc⟩⟩
    · have h1f : (spec.platforms.isEmpty
          || spec.platforms.any (fun f => tags.contains f)) = false :=
        Bool.not_eq_true _ ▸ eq_false_of_ne_true h1
      rw [h1f] at h
      simp at h
  · rintro ⟨hplat, hhost⟩
    unfold ToolSpecToml.applies_to
    have h1 : (spec.platforms.isEmpty
        || spec.platforms.any (fun f => tags.contains f)) = true := by
      rcases hplat with he | ⟨t, ht, htag⟩
      · simp [he]
      · refine Bool.or_eq_true_iff.mpr (Or.inr ?_)
        exact List.any_eq_true.mpr ⟨t, ht, List.elem_iff.mpr htag⟩
    rw [h1]
    simp only [Bool.not_true, Bool.false_eq_true, if_false]
    rcases hhost with he | ⟨s, hs, hmem⟩
    · simp [he]
    · have hne : ¬ (spec.hosts.isEmpty = true) := by
        intro hc
        rw [List.isEmpty_iff.mp hc] at hmem
        exact absurd hmem (List.not_mem_nil s)
      rw [if_neg hne, hs]
      exact List.any_eq_true.mpr ⟨s, hmem, beq_self_eq_true s⟩

/-- C4: a tool declared in both configs resolves to the workspace
definition wholesale whenever the workspace entry applies to the current
platform tags and host slug; when the workspace entry does not apply, the
(applying) profile entry is kept, its version untouched.  The final
conjunct restates the applicability condition as the claim words it. -/
theorem from_configs_override (profileSource workspaceSource : Str)
    (profileTools workspaceTools : List (Str × ToolSpecToml))
    (platformTags : List Str) (hostSlug : Option Str) (name : Str)
    (pspec wspec : ToolSpecToml)
    (hpkeys : (profileTools.map Prod.fst).Nodup)
    (hwkeys : (workspaceTools.map Prod.fst).Nodup)
    (hp : lookupAL profileTools name = some pspec)
    (hw : lookupAL workspaceTools name = some wspec) :
    ((normalizeSpecFilters wspec).applies_to platformTags hostSlug = true →
      lookupAL (from_configs profileSource profileTools workspaceSource workspaceTools
          platformTags hostSlug) name =
        some ⟨workspaceSource, (normalizeSpecFilters wspec).into_definition name⟩) ∧
    ((normalizeSpecFilters wspec).applies_to platformTags hostSlug = false →
      (normalizeSpecFilters pspec).applies_to platformTags hostSlug = true →
      lookupAL (from_configs profileSource profileTools workspaceSource workspaceTools
          platformTags hostSlug) name =
        some ⟨profileSource, (normalizeSpecFilters pspec).into_definition name⟩ ∧
      ((normalizeSpecFilters pspec).into_definition name).version = pspec.version) ∧
    (∀ spec : ToolSpecToml, spec.applies_to platformTags hostSlug = true ↔
      ((spec.platforms = [] ∨ ∃ t ∈ spec.platforms, t ∈ platformTags) ∧
        (spec.hosts = [] ∨ ∃ s, hostSlug = some s ∧ s ∈ spec.hosts))) := by
  have hwkeys2 : ((normalize_tool_filters workspaceTools).map Prod.fst).Nodup := by
    rw [normalize_keys]; exact hwkeys
  have hpkeys2 : ((normalize_tool_filters profileTools).map Prod.fst).Nodup := by
    rw [normalize_keys]; exact hpkeys
  have hwn : lookupAL (normalize_tool_filters workspaceTools) name =
      some (normalizeSpecFilters wspec) := by
    rw [lookupAL_normalize, hw]; rfl
  have hpn : lookupAL (normalize_tool_filters profileTools) name =
      some (normalizeSpecFilters pspec) := by
    rw [lookupAL_normalize, hp]; rfl
  have houter := insertApplying_lookup workspaceSource
    (normalize_tool_filters workspaceTools) platformTags hostSlug name hwkeys2
  have hinner := insertApplying_lookup profileSource
    (normalize_tool_filters profileTools) platformTags hostSlug name hpkeys2
  refine ⟨?_, ?_, fun spec => applies_to_iff spec platformTags hostSlug⟩
  · intro happ
    unfold from_configs
    rw [houter _, hwn]
    simp only [happ, if_true]
  · intro hnapp happ
    refine ⟨?_, rfl⟩
    unfold from_configs
    rw [houter _, hwn]
    simp only [hnapp, Bool.false_eq_true, if_false]
    rw [hinner _, hpn]
    simp only [happ, if_true]

/-- C4 witness: both configs declare ripgrep; the workspace entry applies
(its mixed-case padded platform filter normalizes to a matching tag) and
replaces the profile entry wholesale. -/
theorem from_configs_override_witness :
    lookupAL (from_configs ("dws.toml".toList) [(("rg".toList), demoProfileSpec)]
        ("config.toml".toList) [(("rg".toList), demoWorkspaceSpec)]
        [("linux".toList)] (some ("box".toList))) ("rg".toList) =
      some ⟨("config.toml".toList),
        (normalizeSpecFilters demoWorkspaceSpec).into_definition ("rg".toList)⟩ :=
  (from_configs_override ("dws.toml".toList) ("config.toml".toList)
    [(("rg".toList), demoProfileSpec)] [(("rg".toList), demoWorkspaceSpec)]
    [("linux".toList)] (some ("box".toList)) ("rg".toList)
    demoProfileSpec demoWorkspaceSpec (by decide) (by decide) (by decide) (by decide)).1
    (by decide)

/-! ### C10 — filter normalization and lowercase tags -/

theorem toLowerAscii_not_upper (c : Char) : isUpperAscii (toLowerAscii c) = false := by
  unfold toLowerAscii
  cases hf : asciiPairs.find? (fun p => p.1 == c) with
  | some p =>
    exact (by decide : ∀ q ∈ asciiPairs, isUpperAscii q.2 = false) p
      (List.mem_of_find?_eq_some hf)
  | none =>
    have hall := List.find?_eq_none.mp hf
    unfold isUpperAscii
    exact List.any_eq_false.mpr (fun q hq => hall q hq)

theorem lowerOnly_lowerStr (s : Str) : lowerOnly (lowerStr s) = true := by
  unfold lowerOnly lowerStr
  rw [List.all_eq_true]
  intro c hc
  rcases List.mem_map.mp hc with ⟨x, _, rfl⟩
  simp [toLowerAscii_not_upper]

theorem ws_toLowerAscii (c : Char) :
    isWhitespaceChar (toLowerAscii c) = isWhitespaceChar c := by
  unfold toLowerAscii
  cases hf : asciiPairs.find? (fun p => p.1 == c) with
  | some q =>
    have hpc := List.find?_some hf
    have hq : q.1 = c := eq_of_beq hpc
    rw [← hq]
    exact (by decide :
      ∀ q2 ∈ asciiPairs, isWhitespaceChar q2.2 = isWhitespaceChar q2.1) q
      (List.mem_of_find?_eq_some hf)
  | none => rfl

theorem dropWhile_append_of_all {p : Char → Bool} (l t : Str)
    (h : ∀ c ∈ l, p c = true) : (l ++ t).dropWhile p = t.dropWhile p := by
  induction l with
  | nil => rfl
  | cons a rest ih =>
    rw [List.cons_append, List.dropWhile_cons,
      if_pos (h a (List.mem_cons_self a rest))]
    exact ih (fun c hc => h c (List.mem_cons_of_mem a hc))

theorem dropWhile_append_of_ne_nil {p : Char → Bool} (t r : Str)
    (h : t.dropWhile p ≠ []) : (t ++ r).dropWhile p = t.dropWhile p ++ r := by
  induction t with
  | nil => exact absurd rfl h
  | cons a rest ih =>
    rw [List.cons_append, List.dropWhile_cons, List.dropWhile_cons]
    rw [List.dropWhile_cons] at h
    by_cases hp : p a = true
    · rw [if_pos hp, if_pos hp]
      rw [if_pos hp] at h
      exact ih h
    · rw [if_neg hp, if_neg hp, List.cons_append]

theorem trimStr_append_left (l t : Str) (h : ∀ c ∈ l, isWhitespaceChar c = true) :
    trimStr (l ++ t) = trimStr t := by
  unfold trimStr
  rw [dropWhile_append_of_all l t h]

theorem trimStr_append_right (t r : Str) (h : ∀ c ∈ r, isWhitespaceChar c = true) :
    trimStr (t ++ r) = trimStr t := by
  unfold trimStr
  by_cases h0 : t.dropWhile isWhitespaceChar = []
  · have hall : ∀ c ∈ t, isWhitespaceChar c = true := by
      intro c hc
      exact List.dropWhile_eq_nil_iff.mp h0 c hc
    rw [dropWhile_append_of_all t r hall, h0,
      List.dropWhile_eq_nil_iff.mpr (fun c hc => h c hc)]
  · rw [dropWhile_append_of_ne_nil t r h0, List.reverse_append,
      dropWhile_append_of_all r.reverse _
        (fun c hc => h c (List.mem_reverse.mp hc))]

theorem trimStr_lowerStr (s : Str) : trimStr (lowerStr s) = lowerStr (trimStr s) := by
  have hcomp : (isWhitespaceChar ∘ toLowerAscii) = isWhitespaceChar := by
    funext c
    exact ws_toLowerAscii c
  unfold trimStr lowerStr
  rw [List.dropWhile_map, hcomp, ← List.map_reverse, List.dropWhile_map, hcomp,
    ← List.map_reverse]

theorem normalize_filter_variant (value written : Str)
    (h : writtenVariant value written) :
    normalize_filter written = normalize_filter value := by
  rcases h with ⟨l, r, y, hl, hr, hy, rfl⟩
  unfold normalize_filter
  rw [List.append_assoc, trimStr_append_left l (y ++ r) hl, trimStr_append_right y r hr,
    ← trimStr_lowerStr, hy, trimStr_lowerStr]

theorem lowerOnly_append (a b : Str) (ha : lowerOnly a = true) (hb : lowerOnly b = true) :
    lowerOnly (a ++ b) = true := by
  unfold lowerOnly at *
  rw [List.all_append, ha, hb]
  rfl

theorem osReleaseValue_lower (kvs : List (Str × Str)) (key v : Str)
    (h : osReleaseValue kvs key = some v) : lowerOnly v = true := by
  unfold osReleaseValue at h
  cases hfind : kvs.reverse.find? (fun kv => lowerStr kv.1 == key) with
  | none => rw [hfind] at h; cases h
  | some kv =>
    rw [hfind] at h
    have hv : osReleaseClean kv.2 = v := Option.some.inj h
    rw [← hv]
    unfold osReleaseClean
    exact lowerOnly_lowerStr _

theorem linux_distribution_tags_lower (kvs : List (Str × Str)) :
    ∀ d ∈ linux_distribution_tags kvs, lowerOnly d = true := by
  intro d hd
  unfold linux_distribution_tags at hd
  rcases List.mem_append.mp hd with h | h
  · cases hid : osReleaseValue kvs ("id".toList) with
    | none => rw [hid] at h; cases h
    | some v =>
      rw [hid] at h
      have hdv : d = v := List.mem_singleton.mp h
      rw [hdv]
      exact osReleaseValue_lower kvs _ v hid
  · cases hid : osReleaseValue kvs ("id_like".toList) with
    | none => rw [hid] at h; cases h
    | some v =>
      rw [hid] at h
      rcases List.mem_map.mp h with ⟨part, _, rfl⟩
      exact lowerOnly_lowerStr part

theorem platform_tags_lower (os arch : Str) (osRelease : List (Str × Str)) :
    ∀ t ∈ platform_tags os arch osRelease, lowerOnly t = true := by
  intro t ht
  have hosn : lowerOnly (normalize_filter os) = true := lowerOnly_lowerStr _
  have harch : lowerOnly ('-' :: normalize_filter arch) = true := by
    have h2 : lowerOnly (normalize_filter arch) = true := lowerOnly_lowerStr (trimStr arch)
    unfold lowerOnly at h2 ⊢
    rw [List.all_cons, h2]
    rfl
  have hbase : ∀ u ∈ [normalize_filter os,
      normalize_filter os ++ ('-' :: normalize_filter arch)], lowerOnly u = true := by
    intro u hu
    rcases List.mem_cons.mp hu with rfl | hu
    · exact hosn
    · rcases List.mem_singleton.mp hu with rfl
      exact lowerOnly_append _ _ hosn harch
  unfold platform_tags at ht
  by_cases hmac : (normalize_filter os == ("macos".toList)) = true
  · rw [if_pos hmac] at ht
    rcases List.mem_append.mp ht with ht | ht
    · by_cases hlin : (normalize_filter os == ("linux".toList)) = true
      · rw [if_pos hlin] at ht
        rcases List.mem_append.mp ht with ht | ht
        · exact hbase t ht
        · rcases List.mem_map.mp ht with ⟨d, hd, rfl⟩
          exact lowerOnly_append _ _ (by decide) (linux_distribution_tags_lower osRelease d hd)
      · rw [if_neg hlin] at ht
        exact hbase t ht
    · rcases List.mem_singleton.mp ht with rfl
      decide
  · rw [if_neg hmac] at ht
    by_cases hlin : (normalize_filter os == ("linux".toList)) = true
    · rw [if_pos hlin] at ht
      rcases List.mem_append.mp ht with ht | ht
      · exact hbase t ht
      · rcases List.mem_map.mp ht with ⟨d, hd, rfl⟩
        exact lowerOnly_append _ _ (by decide) (linux_distribution_tags_lower osRelease d hd)
    · rw [if_neg hlin] at ht
      exact hbase t ht

theorem hostSlugChars_lower (raw : Str) : ∀ b : Bool,
    lowerOnly (hostSlugChars raw b) = true := by
  induction raw with
  | nil => intro b; rfl
  | cons c rest ih =>
    intro b
    unfold hostSlugChars
    by_cases ha : isAlnumAscii c = true
    · rw [if_pos ha]
      unfold lowerOnly
      rw [List.all_cons]
      have h1 : (!isUpperAscii (toLowerAscii c)) = true := by
        rw [toLowerAscii_not_upper]
        rfl
      rw [h1]
      have := ih false
      unfold lowerOnly at this
      rw [this]
      rfl
    · rw [if_neg ha]
      by_cases hb : b = true
      · rw [if_pos hb]
        exact ih true
      · rw [if_neg hb]
        unfold lowerOnly
        rw [List.all_cons]
        have := ih true
        unfold lowerOnly at this
        rw [this]
        rfl

theorem lowerOnly_of_subset (s t : Str) (hsub : s ⊆ t) (h : lowerOnly t = true) :
    lowerOnly s = true := by
  unfold lowerOnly at *
  rw [List.all_eq_true] at *
  exact fun c hc => h c (hsub hc)

theorem host_slug_lower (raw : Str) : lowerOnly (host_slug raw) = true := by
  unfold host_slug
  by_cases he : (trimMatchesChar '-' (hostSlugChars raw false)).isEmpty = true
  · rw [if_pos he]
    decide
  · rw [if_neg he]
    refine lowerOnly_of_subset _ (hostSlugChars raw false) ?_ (hostSlugChars_lower raw false)
    unfold trimMatchesChar
    intro c hc
    rw [List.mem_reverse] at hc
    have hc2 := List.dropWhile_subset _ hc
    rw [List.mem_reverse] at hc2
    exact List.dropWhile_subset _ hc2

/-- C10: filter values are trimmed and ASCII-lowercased before matching —
any case or surrounding-whitespace variant of a value normalizes to the
same filter — the platform tags and the host slug are produced without any
uppercase ASCII letter, and replacing the platform/hosts lists of a spec by
variants of their values leaves the resolved applicability unchanged. -/
theorem tool_filter_normalization :
    (∀ value written : Str, writtenVariant value written →
      normalize_filter written = normalize_filter value) ∧
    (∀ (os arch : Str) (osRelease : List (Str × Str)),
      ∀ t ∈ platform_tags os arch osRelease, lowerOnly t = true) ∧
    (∀ raw : Str, lowerOnly (host_slug raw) = true) ∧
    (∀ (spec : ToolSpecToml) (tags : List Str) (host : Option Str) (ps hs : List Str),
      List.Forall₂ writtenVariant spec.platforms ps →
      List.Forall₂ writtenVariant spec.hosts hs →
      (normalizeSpecFilters
        { spec with platforms := ps, hosts := hs }).applies_to tags host =
        (normalizeSpecFilters spec).applies_to tags host) := by
  have hmap : ∀ (v w : List Str), List.Forall₂ writtenVariant v w →
      w.map normalize_filter = v.map normalize_filter := by
    intro v w h
    induction h with
    | nil => rfl
    | cons hvar _ ih =>
      simp only [List.map_cons, ih, normalize_filter_variant _ _ hvar]
  refine ⟨normalize_filter_variant, platform_tags_lower, host_slug_lower, ?_⟩
  intro spec tags host ps hs hps hhs
  have heq : normalizeSpecFilters { spec with platforms := ps, hosts := hs } =
      normalizeSpecFilters spec := by
    unfold normalizeSpecFilters
    simp only
    rw [hmap spec.platforms ps hps, hmap spec.hosts hs hhs]
  rw [heq]

/-- C10 witness: a padded mixed-case platform filter normalizes to the
canonical value, and applicability is unchanged by the rewriting. -/
theorem tool_filter_normalization_witness :
    normalize_filter ("  MacOS ".toList) = normalize_filter ("macos".toList) ∧
    (normalizeSpecFilters
      { demoProfileSpec with platforms := [("  MacOS ".toList)], hosts := [] }).applies_to
        [("macos".toList)] none =
      (normalizeSpecFilters
        { demoProfileSpec with platforms := [("macos".toList)], hosts := [] }).applies_to
        [("macos".toList)] none := by
  constructor
  · exact tool_filter_normalization.1 ("macos".toList) ("  MacOS ".toList)
      ⟨(' ' :: ' ' :: []), [' '], ("MacOS".toList), by decide, by decide, by decide, rfl⟩
  · exact tool_filter_normalization.2.2.2
      { demoProfileSpec with platforms := [("macos".toList)], hosts := [] }
      [("macos".toList)] none [("  MacOS ".toList)] []
      (List.Forall₂.cons
        ⟨(' ' :: ' ' :: []), [' '], ("MacOS".toList), by decide, by decide, by decide, rfl⟩
        List.Forall₂.nil)
      List.Forall₂.nil

/-! ### C1, C2 — select_asset -/

theorem selectStep_pos (isMatch : Str → Bool) (acc : Option (GithubAsset × Bool))
    (a : GithubAsset) (h : isMatch a.name = true) :
    selectStep isMatch acc a = rankStep acc a := by
  unfold selectStep
  rw [h]
  rfl

theorem selectStep_neg (isMatch : Str → Bool) (acc : Option (GithubAsset × Bool))
    (a : GithubAsset) (h : ¬ isMatch a.name = true) :
    selectStep isMatch acc a = acc := by
  unfold selectStep
  rw [eq_false_of_ne_true h]
  rfl

theorem rankStep_none (asset : GithubAsset) : rankStep none asset = some (asset, false) := rfl

theorem rankStep_some (cur : GithubAsset) (amb : Bool) (asset : GithubAsset) :
    rankStep (some (cur, amb)) asset =
      if rankKey cur < rankKey asset then some (asset, false)
      else if rankKey asset = rankKey cur then some (cur, true)
      else some (cur, amb) := rfl

theorem foldl_selectStep_filter (isMatch : Str → Bool) (assets : List GithubAsset) :
    ∀ acc, assets.foldl (selectStep isMatch) acc =
      (assets.filter (fun x => isMatch x.name)).foldl rankStep acc := by
  induction assets with
  | nil => intro acc; rfl
  | cons a rest ih =>
    intro acc
    rw [List.foldl_cons]
    by_cases hm : isMatch a.name = true
    · have hfil : (a :: rest).filter (fun x => isMatch x.name) =
          a :: rest.filter (fun x => isMatch x.name) := by
        simp [hm]
      rw [hfil, List.foldl_cons, selectStep_pos isMatch acc a hm]
      exact ih (rankStep acc a)
    · have hfil : (a :: rest).filter (fun x => isMatch x.name) =
          rest.filter (fun x => isMatch x.name) := by
        simp [hm]
      rw [hfil, selectStep_neg isMatch acc a hm]
      exact ih acc

theorem selectBest_eq_rankFold (isMatch : Str → Bool) (assets : List GithubAsset) :
    selectBest isMatch assets =
      (assets.filter (fun x => isMatch x.name)).foldl rankStep none :=
  foldl_selectStep_filter isMatch assets none

theorem rankFold_keep_max (a : GithubAsset) :
    ∀ l : List GithubAsset, (∀ b ∈ l, rankKey b < rankKey a) →
      l.foldl rankStep (some (a, false)) = some (a, false) := by
  intro l
  induction l with
  | nil => intro _; rfl
  | cons b rest ih =>
    intro h
    have hb := h b (List.mem_cons_self b rest)
    rw [List.foldl_cons]
    have hstep : rankStep (some (a, false)) b = some (a, false) := by
      rw [rankStep_some, if_neg (lt_asymm hb), if_neg (ne_of_lt hb)]
    rw [hstep]
    exact ih (fun x hx => h x (List.mem_cons_of_mem b hx))

theorem rankFold_below (a : GithubAsset) :
    ∀ l : List GithubAsset, (∀ b ∈ l, rankKey b < rankKey a) →
    ∀ (c : GithubAsset) (amb : Bool), rankKey c < rankKey a →
      ∃ d amb2, l.foldl rankStep (some (c, amb)) = some (d, amb2) ∧
        rankKey d < rankKey a := by
  intro l
  induction l with
  | nil => exact fun _ c amb hc => ⟨c, amb, rfl, hc⟩
  | cons b rest ih =>
    intro hl c amb hc
    have hb := hl b (List.mem_cons_self b rest)
    have hrest := fun x hx => hl x (List.mem_cons_of_mem b hx)
    rw [List.foldl_cons]
    by_cases h1 : rankKey c < rankKey b
    · have hstep : rankStep (some (c, amb)) b = some (b, false) := by
        rw [rankStep_some, if_pos h1]
      rw [hstep]
      exact ih hrest b false hb
    · by_cases h2 : rankKey b = rankKey c
      · have hstep : rankStep (some (c, amb)) b = some (c, true) := by
          rw [rankStep_some, if_neg h1, if_pos h2]
        rw [hstep]
        exact ih hrest c true hc
      · have hstep : rankStep (some (c, amb)) b = some (c, amb) := by
          rw [rankStep_some, if_neg h1, if_neg h2]
        rw [hstep]
        exact ih hrest c amb hc

theorem rankFold_strict_max (pre post : List GithubAsset) (a : GithubAsset)
    (hpre : ∀ b ∈ pre, rankKey b < rankKey a)
    (hpost : ∀ b ∈ post, rankKey b < rankKey a) :
    (pre ++ a :: post).foldl rankStep none = some (a, false) := by
  rw [List.foldl_append]
  cases pre with
  | nil =>
    rw [List.foldl_nil, List.foldl_cons]
    rw [rankStep_none]
    exact rankFold_keep_max a post hpost
  | cons b rest =>
    have hb := hpre b (List.mem_cons_self b rest)
    have hrest := fun x hx => hpre x (List.mem_cons_of_mem b hx)
    rw [List.foldl_cons rest none, rankStep_none]
    rcases rankFold_below a rest hrest b false hb with ⟨d, amb2, hfold, hd⟩
    rw [hfold, List.foldl_cons]
    have hstep2 : rankStep (some (d, amb2)) a = some (a, false) := by
      rw [rankStep_some, if_pos hd]
    rw [hstep2]
    exact rankFold_keep_max a post hpost

theorem rankFold_eq_stable (a : GithubAsset) :
    ∀ l : List GithubAsset, (∀ c ∈ l, ¬ rankKey a < rankKey c) →
    ∀ (m : GithubAsset) (amb : Bool), rankKey m = rankKey a →
      ∃ amb2, l.foldl rankStep (some (m, amb)) = some (m, amb2) ∧
        (amb = true → amb2 = true) := by
  intro l
  induction l with
  | nil => exact fun _ m amb _ => ⟨amb, rfl, fun h => h⟩
  | cons c rest ih =>
    intro hl m amb hm
    have hc := hl c (List.mem_cons_self c rest)
    have hrest := fun x hx => hl x (List.mem_cons_of_mem c hx)
    have h1 : ¬ rankKey m < rankKey c := by
      rw [hm]
      exact hc
    rw [List.foldl_cons]
    by_cases h2 : rankKey c = rankKey m
    · have hstep : rankStep (some (m, amb)) c = some (m, true) := by
        rw [rankStep_some, if_neg h1, if_pos h2]
      rw [hstep]
      rcases ih hrest m true hm with ⟨amb2, hfold, himp⟩
      exact ⟨amb2, hfold, fun _ => himp rfl⟩
    · have hstep : rankStep (some (m, amb)) c = some (m, amb) := by
        rw [rankStep_some, if_neg h1, if_neg h2]
      rw [hstep]
      exact ih hrest m amb hm

theorem rankFold_no_gt (a : GithubAsset) :
    ∀ l : List GithubAsset, (∀ c ∈ l, ¬ rankKey a < rankKey c) →
      l.foldl rankStep none = none ∨
        ∃ d am, l.foldl rankStep none = some (d, am) ∧ ¬ rankKey a < rankKey d := by
  have step : ∀ (l : List GithubAsset), (∀ c ∈ l, ¬ rankKey a < rankKey c) →
      ∀ (d : GithubAsset) (am : Bool), ¬ rankKey a < rankKey d →
        ∃ d2 am2, l.foldl rankStep (some (d, am)) = some (d2, am2) ∧
          ¬ rankKey a < rankKey d2 := by
    intro l
    induction l with
    | nil => exact fun _ d am hd => ⟨d, am, rfl, hd⟩
    | cons c rest ih =>
      intro hl d am hd
      have hc := hl c (List.mem_cons_self c rest)
      have hrest := fun x hx => hl x (List.mem_cons_of_mem c hx)
      rw [List.foldl_cons]
      by_cases h1 : rankKey d < rankKey c
      · have hstep : rankStep (some (d, am)) c = some (c, false) := by
          rw [rankStep_some, if_pos h1]
        rw [hstep]
        exact ih hrest c false hc
      · by_cases h2 : rankKey c = rankKey d
        · have hstep : rankStep (some (d, am)) c = some (d, true) := by
            rw [rankStep_some, if_neg h1, if_pos h2]
          rw [hstep]
          exact ih hrest d true hd
        · have hstep : rankStep (some (d, am)) c = some (d, am) := by
            rw [rankStep_some, if_neg h1, if_neg h2]
          rw [hstep]
          exact ih hrest d am hd
  intro l hl
  cases l with
  | nil => exact Or.inl rfl
  | cons c rest =>
    have hc := hl c (List.mem_cons_self c rest)
    have hrest := fun x hx => hl x (List.mem_cons_of_mem c hx)
    rw [List.foldl_cons]
    rw [rankStep_none]
    rcases step rest hrest c false hc with ⟨d2, am2, hfold, hd2⟩
    exact Or.inr ⟨d2, am2, hfold, hd2⟩

theorem rankFold_ambiguous (pre mid post : List GithubAsset) (a b : GithubAsset)
    (heq : rankKey b = rankKey a)
    (hno : ∀ c ∈ pre ++ a :: mid ++ b :: post, ¬ rankKey a < rankKey c) :
    ∃ m, (pre ++ a :: mid ++ b :: post).foldl rankStep none = some (m, true) := by
  have hnopre : ∀ c ∈ pre, ¬ rankKey a < rankKey c :=
    fun c hc => hno c (List.mem_append.mpr (Or.inl (List.mem_append.mpr (Or.inl hc))))
  have hnomid : ∀ c ∈ mid, ¬ rankKey a < rankKey c :=
    fun c hc => hno c (List.mem_append.mpr (Or.inl
      (List.mem_append.mpr (Or.inr (List.mem_cons_of_mem a hc)))))
  have hnob : ¬ rankKey a < rankKey b :=
    hno b (List.mem_append.mpr (Or.inr (List.mem_cons_self b post)))
  have hnopost : ∀ c ∈ post, ¬ rankKey a < rankKey c :=
    fun c hc => hno c (List.mem_append.mpr (Or.inr (List.mem_cons_of_mem b hc)))
  have hacc := rankFold_no_gt a pre hnopre
  have hstepA : ∃ m1 amb1, rankStep (pre.foldl rankStep none) a = some (m1, amb1) ∧
      rankKey m1 = rankKey a := by
    rcases hacc with hnone | ⟨d, am, hsome, hd⟩
    · rw [hnone, rankStep_none]
      exact ⟨a, false, rfl, rfl⟩
    · rw [hsome]
      by_cases h1 : rankKey d < rankKey a
      · rw [rankStep_some, if_pos h1]
        exact ⟨a, false, rfl, rfl⟩
      · by_cases h2 : rankKey a = rankKey d
        · rw [rankStep_some, if_neg h1, if_pos h2]
          exact ⟨d, true, rfl, h2.symm⟩
        · rcases lt_trichotomy (rankKey a) (rankKey d) with hlt | heq2 | hgt
          · exact absurd hlt hd
          · exact absurd heq2 h2
          · exact absurd hgt h1
  rcases hstepA with ⟨m1, amb1, hstepA, hm1⟩
  rcases rankFold_eq_stable a mid hnomid m1 amb1 hm1 with ⟨amb2, hmid, _⟩
  have hbm : rankKey b = rankKey m1 := by
    rw [heq, hm1]
  have hnm : ¬ rankKey m1 < rankKey b := by
    rw [hm1]
    exact hnob
  have hstepB : rankStep (some (m1, amb2)) b = some (m1, true) := by
    rw [rankStep_some, if_neg hnm, if_pos hbm]
  rcases rankFold_eq_stable a post hnopost m1 true hm1 with ⟨amb3, hpost2, himp⟩
  refine ⟨m1, ?_⟩
  rw [List.foldl_append, List.foldl_append,
    List.foldl_cons mid (pre.foldl rankStep none), hstepA, hmid,
    List.foldl_cons post (some (m1, amb2)), hstepB, hpost2, himp rfl]

theorem selectBest_none_of_no_match (isMatch : Str → Bool) (assets : List GithubAsset)
    (h : assets.filter (fun x => isMatch x.name) = []) :
    selectBest isMatch assets = none := by
  rw [selectBest_eq_rankFold, h]
  rfl

theorem selectLoop_skip (assets : List GithubAsset) :
    ∀ (k : Nat) (fs : List (Str → Bool)) (idx : Nat),
      (∀ j, j < k → filterMatches assets fs j = []) → k ≤ fs.length →
      selectLoop assets idx fs = selectLoop assets (idx + k) (fs.drop k) := by
  intro k
  induction k with
  | zero => intro fs idx _ _; rfl
  | succ n ih =>
    intro fs idx hskip hlen
    cases fs with
    | nil => exact absurd hlen (by simp)
    | cons f rest =>
      have h0 : assets.filter (fun x => f x.name) = [] := by
        have := hskip 0 (Nat.succ_pos n)
        unfold filterMatches at this
        simpa using this
      have heqn : selectLoop assets idx (f :: rest) =
          match selectBest f assets with
          | some (asset, amb) =>
            if amb = true then Except.error (SelectError.ambiguous idx)
            else Except.ok ⟨asset, idx⟩
          | none => selectLoop assets (idx + 1) rest := rfl
      have hstep : selectLoop assets idx (f :: rest) = selectLoop assets (idx + 1) rest := by
        rw [heqn, selectBest_none_of_no_match f assets h0]
      rw [hstep]
      have hshift : ∀ j, j < n → filterMatches assets rest j = [] := by
        intro j hj
        have := hskip (j + 1) (Nat.succ_lt_succ hj)
        unfold filterMatches at this ⊢
        rwa [List.getElem?_cons_succ] at this
      have hlen2 : n ≤ rest.length := by
        simpa using Nat.le_of_succ_le_succ hlen
      rw [ih rest (idx + 1) hshift hlen2, List.drop_succ_cons]
      have harith : idx + 1 + n = idx + (n + 1) := by omega
      rw [harith]

/-- C1: with a non-empty asset list and non-empty ordered filters, if the
filters before position i match nothing, filter i matches a non-empty set
whose strict rank maximum (score, then size descending, then name
descending) is the asset a, then select_asset returns a with pattern index
i, later filters are never consulted (the result equals the run on the
first i+1 filters alone), and the score is exactly the specified one: 100
for an uploaded/available state plus the extension bonus and the additive
case-insensitive substring bonuses. -/
theorem select_asset_first_match (r : GithubRelease) (filters : List (Str → Bool))
    (i : Nat) (f : Str → Bool) (a : GithubAsset) (pre post : List GithubAsset)
    (hf : filters[i]? = some f)
    (hskip : ∀ j, j < i → filterMatches r.assets filters j = [])
    (hsplit : r.assets.filter (fun x => f x.name) = pre ++ a :: post)
    (hmax : ∀ b ∈ pre ++ post, rankKey b < rankKey a) :
    select_asset r filters = .ok ⟨a, i⟩ ∧
    select_asset r filters = select_asset r (filters.take (i + 1)) ∧
    (∀ x : GithubAsset, assetScore x = scoreSpec x) := by
  have hilen : i < filters.length := by
    rcases List.getElem?_eq_some_iff.mp hf with ⟨h, _⟩
    exact h
  have hfe : filters.isEmpty = false := by
    cases filters with
    | nil => simp at hilen
    | cons g gs => rfl
  have hmem : a ∈ r.assets := by
    have : a ∈ r.assets.filter (fun x => f x.name) := by
      rw [hsplit]
      exact List.mem_append.mpr (Or.inr (List.mem_cons_self a post))
    exact (List.mem_filter.mp this).1
  have hae : r.assets.isEmpty = false := by
    cases hassets : r.assets with
    | nil => rw [hassets] at hmem; cases hmem
    | cons x xs => rfl
  have hpre : ∀ b ∈ pre, rankKey b < rankKey a :=
    fun b hb => hmax b (List.mem_append.mpr (Or.inl hb))
  have hpost : ∀ b ∈ post, rankKey b < rankKey a :=
    fun b hb => hmax b (List.mem_append.mpr (Or.inr hb))
  have hbest : selectBest f r.assets = some (a, false) := by
    rw [selectBest_eq_rankFold, hsplit]
    exact rankFold_strict_max pre post a hpre hpost
  have hdrop : filters.drop i = f :: filters.drop (i + 1) := by
    rw [List.drop_eq_getElem_cons hilen]
    rcases List.getElem?_eq_some_iff.mp hf with ⟨h, hv⟩
    rw [hv]
  have hloop : ∀ idx, selectLoop r.assets idx (f :: filters.drop (i + 1)) =
      .ok ⟨a, idx⟩ := by
    intro idx
    unfold selectLoop
    rw [hbest]
    rfl
  have hmain : select_asset r filters = .ok ⟨a, i⟩ := by
    unfold select_asset
    rw [hfe, hae]
    simp only [Bool.false_eq_true, if_false]
    rw [selectLoop_skip r.assets i filters 0 hskip (Nat.le_of_lt hilen), hdrop,
      Nat.zero_add, hloop i]
  have htake : select_asset r (filters.take (i + 1)) = .ok ⟨a, i⟩ := by
    have htlen : (filters.take (i + 1)).length = i + 1 := by
      rw [List.length_take]
      omega
    have htfe : (filters.take (i + 1)).isEmpty = false := by
      cases htk : filters.take (i + 1) with
      | nil => rw [htk] at htlen; simp at htlen
      | cons g gs => rfl
    have htskip : ∀ j, j < i → filterMatches r.assets (filters.take (i + 1)) j = [] := by
      intro j hj
      have heq2 : (filters.take (i + 1))[j]? = filters[j]? :=
        List.getElem?_take_of_lt (by omega)
      unfold filterMatches
      rw [heq2]
      have := hskip j hj
      unfold filterMatches at this
      exact this
    have htdrop : (filters.take (i + 1)).drop i = [f] := by
      rw [← List.take_drop i 1 filters, hdrop]
      rfl
    unfold select_asset
    rw [htfe, hae]
    simp only [Bool.false_eq_true, if_false]
    rw [selectLoop_skip r.assets i (filters.take (i + 1)) 0 htskip (by omega), htdrop,
      Nat.zero_add]
    unfold selectLoop
    rw [hbest]
    rfl
  refine ⟨hmain, by rw [hmain, htake], ?_⟩
  intro x
  unfold assetScore scoreSpec extension_score architecture_score
  ring

/-- C1 witness: two linux assets, the first filter (windows) matches
nothing, the second (linux) matches both; the tar.gz asset outranks the deb
and is selected with pattern index 1. -/
theorem select_asset_first_match_witness :
    select_asset demoRelease demoFilters = .ok ⟨demoAssetLinuxTar, 1⟩ :=
  (select_asset_first_match demoRelease demoFilters 1
    (fun n => containsSub n ("linux".toList)) demoAssetLinuxTar [] [demoAssetLinuxDeb]
    rfl (by decide) (by decide) (by decide)).1

/-- C2: under the first filter with any match, if two matching assets carry
identical maximal rank tuples, select_asset fails with the ambiguity error
for that filter instead of picking one, and it does not fall through to any
later filter (the result equals the run on the first i+1 filters alone). -/
theorem select_asset_ambiguous (r : GithubRelease) (filters : List (Str → Bool))
    (i : Nat) (f : Str → Bool) (a b : GithubAsset) (pre mid post : List GithubAsset)
    (hf : filters[i]? = some f)
    (hskip : ∀ j, j < i → filterMatches r.assets filters j = [])
    (hsplit : r.assets.filter (fun x => f x.name) = pre ++ a :: mid ++ b :: post)
    (heq : rankKey b = rankKey a)
    (hno : ∀ c ∈ pre ++ a :: mid ++ b :: post, ¬ rankKey a < rankKey c) :
    select_asset r filters = .error (.ambiguous i) ∧
    select_asset r filters = select_asset r (filters.take (i + 1)) := by
  have hilen : i < filters.length := by
    rcases List.getElem?_eq_some_iff.mp hf with ⟨h, _⟩
    exact h
  have hfe : filters.isEmpty = false := by
    cases filters with
    | nil => simp at hilen
    | cons g gs => rfl
  have hmem : a ∈ r.assets := by
    have : a ∈ r.assets.filter (fun x => f x.name) := by
      rw [hsplit]
      exact List.mem_append.mpr (Or.inl (List.mem_append.mpr
        (Or.inr (List.mem_cons_self a mid))))
    exact (List.mem_filter.mp this).1
  have hae : r.assets.isEmpty = false := by
    cases hassets : r.assets with
    | nil => rw [hassets] at hmem; cases hmem
    | cons x xs => rfl
  have hbest : ∃ m, selectBest f r.assets = some (m, true) := by
    rw [selectBest_eq_rankFold, hsplit]
    exact rankFold_ambiguous pre mid post a b heq hno
  rcases hbest with ⟨m, hbest⟩
  have hdrop : filters.drop i = f :: filters.drop (i + 1) := by
    rw [List.drop_eq_getElem_cons hilen]
    rcases List.getElem?_eq_some_iff.mp hf with ⟨h, hv⟩
    rw [hv]
  have hloop : ∀ idx, selectLoop r.assets idx (f :: filters.drop (i + 1)) =
      .error (.ambiguous idx) := by
    intro idx
    unfold selectLoop
    rw [hbest]
    rfl
  have hmain : select_asset r filters = .error (.ambiguous i) := by
    unfold select_asset
    rw [hfe, hae]
    simp only [Bool.false_eq_true, if_false]
    rw [selectLoop_skip r.assets i filters 0 hskip (Nat.le_of_lt hilen), hdrop,
      Nat.zero_add, hloop i]
  have htake : select_asset r (filters.take (i + 1)) = .error (.ambiguous i) := by
    have htlen : (filters.take (i + 1)).length = i + 1 := by
      rw [List.length_take]
      omega
    have htfe : (filters.take (i + 1)).isEmpty = false := by
      cases htk : filters.take (i + 1) with
      | nil => rw [htk] at htlen; simp at htlen
      | cons g gs => rfl
    have htskip : ∀ j, j < i → filterMatches r.assets (filters.take (i + 1)) j = [] := by
      intro j hj
      have heq2 : (filters.take (i + 1))[j]? = filters[j]? :=
        List.getElem?_take_of_lt (by omega)
      unfold filterMatches
      rw [heq2]
      have := hskip j hj
      unfold filterMatches at this
      exact this
    have htdrop : (filters.take (i + 1)).drop i = [f] := by
      rw [← List.take_drop i 1 filters, hdrop]
      rfl
    unfold select_asset
    rw [htfe, hae]
    simp only [Bool.false_eq_true, if_false]
    rw [selectLoop_skip r.assets i (filters.take (i + 1)) 0 htskip (by omega), htdrop,
      Nat.zero_add]
    unfold selectLoop
    rw [hbest]
    rfl
  exact ⟨hmain, by rw [hmain, htake]⟩

/-- C2 witness: two assets with identical name, size, state and hence
identical rank tuples under the only filter; selection fails as ambiguous
at filter 0. -/
theorem select_asset_ambiguous_witness :
    select_asset demoAmbiguousRelease [fun n => containsSub n ("linux".toList)] =
      .error (.ambiguous 0) :=
  (select_asset_ambiguous demoAmbiguousRelease
    [fun n => containsSub n ("linux".toList)] 0
    (fun n => containsSub n ("linux".toList)) demoAssetTwinOne demoAssetTwinTwo
    [] [] [] rfl (by intro j hj; omega) (by decide) (by decide) (by decide)).1

end Devspace
